import Mathlib

/-!
Verification development for the digital-coach chat backend
(routing / policy-enforcement pipeline).

The TypeScript sources are shallowly embedded: strings are Lean `String`s
processed as `List Char`; JavaScript regular expressions are embedded via a
small explicit pattern engine (`Pat`, below) whose existential search
semantics coincide with a backtracking matcher's "is there a match"
answer, plus bespoke deterministic scanners for the few places the code
extracts matched substrings (mirroring leftmost-greedy `exec` semantics).
JavaScript numbers used in scoring are modelled as rationals (`ℚ`).
Regex strings stored in tool rows (compiled with `new RegExp` at runtime,
malformed ones contributing no match) are modelled as opaque test
functions `String → Bool`.
-/

namespace Coach

/-- JS `\w` word characters: `[A-Za-z0-9_]`. -/

def isWordChar (c : Char) : Bool :=
  (('a' ≤ c && c ≤ 'z') || ('A' ≤ c && c ≤ 'Z') || ('0' ≤ c && c ≤ '9') || c = '_')

/-- JS `\s` / `String.prototype.trim` whitespace (the ASCII part plus NBSP). -/

def isJsWs (c : Char) : Bool :=
  (c = ' ' || c = '\t' || c = '\n' || c = '\r' ||
   c = '\x0b' || c = '\x0c' || c = '\u00A0')

def isDigitCh (c : Char) : Bool := '0' ≤ c && c ≤ '9'

def isLowerCh (c : Char) : Bool := 'a' ≤ c && c ≤ 'z'

def isUpperCh (c : Char) : Bool := 'A' ≤ c && c ≤ 'Z'

/-- ASCII lower-casing, as `String.prototype.toLowerCase` acts on ASCII. -/

def lowerCh (c : Char) : Char :=
  if isUpperCh c then Char.ofNat (c.toNat + 32) else c

def lowerStr (s : String) : String := ⟨s.data.map lowerCh⟩

/-- Case-insensitive char equality (ASCII). -/

def chEqCI (a b : Char) : Bool := lowerCh a = lowerCh b

/-! ## A small regex engine

`Pat` covers the constructs used by the embedded regexes: character
classes, sequencing, alternation, class-star (every `*`/`+` in the
sources quantifies a character class), option, and the `\b` word-boundary
assertion.  `searchFrom` decides "some match starts at some position",
which agrees with JS `RegExp.test` for these patterns. -/

inductive Pat where
  | eps : Pat
  | cls (p : Char → Bool) : Pat
  | seq (a b : Pat) : Pat
  | alt (a b : Pat) : Pat
  | star (p : Char → Bool) : Pat
  | opt (a : Pat) : Pat
  | bnd : Pat

/-- Word-ness of the next (unconsumed) character; end of input counts non-word. -/

def wordNext : List Char → Bool
  | [] => false
  | c :: _ => isWordChar c

/-- All ways a class-star can consume a prefix.  The `Bool` tracks
word-ness of the last consumed character. -/

def starSplits (p : Char → Bool) : Bool → List Char → List (Bool × List Char)
  | w, [] => [(w, [])]
  | w, c :: cs => (w, c :: cs) :: (if p c then starSplits p (isWordChar c) cs else [])

/-- All (last-char-wordness, remainder) pairs after matching `pat` at the
head of the input; `w` is the word-ness of the character just before the
current position (false at start of string). -/

def matchP : Pat → Bool → List Char → List (Bool × List Char)
  | .eps, w, s => [(w, s)]
  | .cls _, _, [] => []
  | .cls p, _, c :: cs => if p c then [(isWordChar c, cs)] else []
  | .seq a b, w, s => (matchP a w s).flatMap (fun r => matchP b r.1 r.2)
  | .alt a b, w, s => matchP a w s ++ matchP b w s
  | .opt a, w, s => (w, s) :: matchP a w s
  | .star p, w, s => starSplits p w s
  | .bnd, w, s => if w ≠ wordNext s then [(w, s)] else []

/-- Is there a match of `pat` starting exactly here? -/

def matchesAt (pat : Pat) (w : Bool) (s : List Char) : Bool :=
  !(matchP pat w s).isEmpty

/-- Is there a match of `pat` starting at this or any later position? -/

def searchFrom (pat : Pat) : Bool → List Char → Bool
  | w, [] => matchesAt pat w []
  | w, c :: cs => matchesAt pat w (c :: cs) || searchFrom pat (isWordChar c) cs

/-- JS `re.test(s)` for an unanchored pattern. -/

def rtest (pat : Pat) (s : String) : Bool := searchFrom pat false s.data

/-- Literal string pattern; `ci` makes it case-insensitive. -/

def strPat (ci : Bool) (t : String) : Pat :=
  t.data.foldr (fun c acc => .seq (.cls (fun d => if ci then chEqCI d c else d = c)) acc) .eps

def altList : List Pat → Pat
  | [] => .cls (fun _ => false)
  | [p] => p
  | p :: ps => .alt p (altList ps)

/-- Case-insensitive alternation of literal words. -/

def altWordsCI (ws : List String) : Pat := altList (ws.map (strPat true))

/-- `\b(w1|w2|...)\b`, case-insensitive. -/

def wordAltCI (ws : List String) : Pat := .seq .bnd (.seq (altWordsCI ws) .bnd)

/-- Single-character class pattern, case-insensitive. -/

def chCI (c : Char) : Pat := .cls (fun d => chEqCI d c)

/-! ## Router (netlify/functions/lib/agents/router.ts, qa-first-v2 revision)

The generation-backend scorer `scoreRouteLLM` is an external call; its
outcome is passed in as a parameter (`none` models a null/failed scorer). -/

structure Msg where
  role : String
  content : String

inductive Route where
  | qa | coach | tools
deriving DecidableEq, Repr

structure RagMeta where
  count : Nat
  mode : Option String
  model : Option String
deriving DecidableEq, Repr

structure RouteResult where
  impl : String
  route : Route
  ragSpans : List String
  ragMeta : RagMeta
  best_tool_slug : Option String
deriving Repr

/-- The scorer's decision (shape of `scoreRouteLLM`'s non-null result as
consumed by `route`). -/

structure ScoredRoute where
  route : Route

/-- Regex `/\b(book|books|author|reading\s*list|recommend( me|ation)?s?|podcast|article|course|courses?)\b/i`. -/

def isMediaAskPat : Pat :=
  .seq .bnd (.seq
    (altList
      [ strPat true "book", strPat true "books", strPat true "author"
      , .seq (strPat true "reading") (.seq (.star isJsWs) (strPat true "list"))
      , .seq (strPat true "recommend")
          (.seq (.opt (.alt (strPat true " me") (strPat true "ation"))) (.opt (chCI 's')))
      , strPat true "podcast", strPat true "article"
      , strPat true "course", .seq (strPat true "course") (.opt (chCI 's')) ])
    .bnd)

def isMediaAsk (t : String) : Bool := rtest isMediaAskPat t

/-- Regex `/\b(yes|yep|sounds good|do it|let'?s try|ok(ay)?|go ahead)\b/i`. -/

def isAffirmativePat : Pat :=
  .seq .bnd (.seq
    (altList
      [ strPat true "yes", strPat true "yep", strPat true "sounds good"
      , strPat true "do it"
      , .seq (strPat true "let") (.seq (.opt (.cls (fun c => c = '\''))) (strPat true "s try"))
      , .seq (strPat true "ok") (.opt (strPat true "ay"))
      , strPat true "go ahead" ])
    .bnd)

def isAffirmative (s : String) : Bool := rtest isAffirmativePat s

/-- `route` of the qa-first-v2 router: media guard, then sticky-slug
computation, then the LLM scorer's pick (defaulting to qa). -/

def route (scored : Option ScoredRoute) (userText : String) (messages : List Msg)
    (lastRecoSlug : Option String) : RouteResult :=
  if isMediaAsk userText then
    { impl := "qa-first-v2", route := .qa, ragSpans := []
      ragMeta := ⟨0, none, none⟩, best_tool_slug := none }
  else
    let lastUserMsg := (((messages.reverse).find? (fun m => m.role = "user")).map Msg.content).getD ""
    let sticky := if isAffirmative lastUserMsg then lastRecoSlug else none
    let picked := (scored.map ScoredRoute.route).getD .qa
    { impl := "qa-first-v2", route := picked, ragSpans := []
      ragMeta := ⟨0, none, none⟩, best_tool_slug := sticky }

/-! ## Follow-up classifier (netlify/functions/chat_v2.ts, lines 988–1041) -/

/-- Regex `/\b(yes|yep|yeah|do it|sounds good|let'?s (go|do it)|please|ok|okay|go ahead|run it|ship it)\b/i`. -/

def affirmPat : Pat :=
  .seq .bnd (.seq
    (altList
      [ strPat true "yes", strPat true "yep", strPat true "yeah", strPat true "do it"
      , strPat true "sounds good"
      , .seq (strPat true "let") (.seq (.opt (.cls (fun c => c = '\'')))
          (.seq (strPat true "s ") (.alt (strPat true "go") (strPat true "do it"))))
      , strPat true "please", strPat true "ok", strPat true "okay"
      , strPat true "go ahead", strPat true "run it", strPat true "ship it" ])
    .bnd)

def isAffirmativeFollowUp (text : String) : Bool := rtest affirmPat text

/-- Regex `/\b(no|nah|not now|pass|skip|don'?t|another way|different approach|prefer not)\b/i`. -/

def negPat : Pat :=
  .seq .bnd (.seq
    (altList
      [ strPat true "no", strPat true "nah", strPat true "not now", strPat true "pass"
      , strPat true "skip"
      , .seq (strPat true "don") (.seq (.opt (.cls (fun c => c = '\''))) (strPat true "t"))
      , strPat true "another way", strPat true "different approach", strPat true "prefer not" ])
    .bnd)

def isNegativeFollowUp (text : String) : Bool := rtest negPat text

/-- `(it|this(\s+tool)?|that(\s+tool)?|this|that)` -/

def itThisThatPat : Pat :=
  altList
    [ strPat true "it"
    , .seq (strPat true "this") (.opt (.seq (.cls isJsWs) (.seq (.star isJsWs) (strPat true "tool"))))
    , .seq (strPat true "that") (.opt (.seq (.cls isJsWs) (.seq (.star isJsWs) (strPat true "tool"))))
    , strPat true "this", strPat true "that" ]

def wsPlus : Pat := .seq (.cls isJsWs) (.star isJsWs)

/-- Regex `/\b(what\s+(is|does)\s+(it|this(\s+tool)?|that(\s+tool)?|this|that)\s*(do)?)\b/i`. -/

def infoPat1 : Pat :=
  .seq .bnd (.seq
    (.seq (strPat true "what")
      (.seq wsPlus (.seq (.alt (strPat true "is") (strPat true "does"))
        (.seq wsPlus (.seq itThisThatPat (.seq (.star isJsWs) (.opt (strPat true "do"))))))))
    .bnd)

/-- Regex `/\b(how\s+(does|would)\s+(it|this(\s+tool)?|that(\s+tool)?|this|that)\s+work)\b/i`. -/

def infoPat2 : Pat :=
  .seq .bnd (.seq
    (.seq (strPat true "how")
      (.seq wsPlus (.seq (.alt (strPat true "does") (strPat true "would"))
        (.seq wsPlus (.seq itThisThatPat (.seq wsPlus (strPat true "work")))))))
    .bnd)

/-- Regex `/\b(explain|more\s+detail|tell\s+me\s+more|why)\b/i`. -/

def infoPat3 : Pat :=
  .seq .bnd (.seq
    (altList
      [ strPat true "explain"
      , .seq (strPat true "more") (.seq wsPlus (strPat true "detail"))
      , .seq (strPat true "tell") (.seq wsPlus (.seq (strPat true "me") (.seq wsPlus (strPat true "more"))))
      , strPat true "why" ])
    .bnd)

def isInfoFollowUp (text : String) : Bool :=
  rtest infoPat1 text || rtest infoPat2 text || rtest infoPat3 text

/-- Regex `/\b(other (options|ways)|alternatives?|compare|vs\.?|versus)\b/i`. -/

def comparePat : Pat :=
  .seq .bnd (.seq
    (altList
      [ .seq (strPat true "other ") (.alt (strPat true "options") (strPat true "ways"))
      , .seq (strPat true "alternative") (.opt (chCI 's'))
      , strPat true "compare"
      , .seq (strPat true "vs") (.opt (.cls (fun c => c = '.')))
      , strPat true "versus" ])
    .bnd)

def isCompareFollowUp (text : String) : Bool := rtest comparePat text

/-- `PlanParams` of chat_v2.ts (all fields optional). -/

structure PlanParams where
  cadence : Option String := none
  due_day : Option String := none
  due_time : Option String := none
  channel : Option String := none
  anonymous : Option Bool := none
  reminders : Option Nat := none
deriving DecidableEq, Repr

/-- First match of `/\b(mon|tue|wed|thu|fri|sat|sun)\w*\b/` (leftmost, greedy
`\w*`); input is already lower-cased by the caller. -/

def dayMatchAt (w : Bool) (s : List Char) : Option (List Char) :=
  if w then none
  else
    (["mon", "tue", "wed", "thu", "fri", "sat", "sun"].find?
        (fun d => d.data.isPrefixOf s)).map
      (fun d => d.data ++ (s.drop 3).takeWhile isWordChar)

def dayScan : Bool → List Char → Option (List Char)
  | _, [] => none
  | w, c :: cs =>
    match dayMatchAt w (c :: cs) with
    | some tok => some tok
    | none => dayScan (isWordChar c) cs

/-- First match of `/\b(\d{1,2})(?::(\d{2}))?\s*(am|pm)\b/` (leftmost; digits
greedy two-then-one, colon group greedy, `\s*` maximal, `am` before `pm`). -/

def timeTail (s : List Char) : Option Nat :=
  let wsn := (s.takeWhile isJsWs).length
  let r := s.drop wsn
  (["am", "pm"].find? (fun a => a.data.isPrefixOf r ∧ wordNext (r.drop 2) = false)).map
    (fun _ => wsn + 2)

def timeAfterDigits (s : List Char) : Option Nat :=
  match s with
  | ':' :: d1 :: d2 :: rest =>
    if isDigitCh d1 && isDigitCh d2 then
      match timeTail rest with
      | some n => some (3 + n)
      | none => (timeTail s).map (fun n => n)
    else (timeTail s).map (fun n => n)
  | _ => (timeTail s).map (fun n => n)

def timeMatchAt (w : Bool) (s : List Char) : Option (List Char) :=
  if w then none
  else
    match s with
    | d1 :: d2 :: rest =>
      if isDigitCh d1 then
        if isDigitCh d2 then
          match timeAfterDigits rest with
          | some n => some (s.take (2 + n))
          | none =>
            match timeAfterDigits (d2 :: rest) with
            | some n => some (s.take (1 + n))
            | none => none
        else
          (timeAfterDigits (d2 :: rest)).map (fun n => s.take (1 + n))
      else none
    | [d1] =>
      if isDigitCh d1 then (timeAfterDigits []).map (fun n => s.take (1 + n)) else none
    | [] => none

def timeScan : Bool → List Char → Option (List Char)
  | _, [] => none
  | w, c :: cs =>
    match timeMatchAt w (c :: cs) with
    | some tok => some tok
    | none => timeScan (isWordChar c) cs

def upperFirst (s : String) : String :=
  match s.data with
  | [] => ""
  | c :: cs => ⟨c.toUpper :: cs⟩

def biweeklyPat : Pat :=
  .seq .bnd (.seq (strPat true "bi")
    (.seq (.opt (.cls (fun c => c = '-' || isJsWs c))) (.seq (strPat true "weekly") .bnd)))

def anonPat : Pat :=
  .seq .bnd (.seq (strPat true "anonym")
    (.seq (.opt (.alt (strPat true "ous") (strPat true "ously"))) .bnd))

def inAppPat : Pat :=
  .seq .bnd (.seq
    (.alt (strPat true "app")
      (.seq (strPat true "in") (.seq (.opt (.cls (fun c => c = '-' || isJsWs c))) (strPat true "app"))))
    .bnd)

def noNudgePat : Pat :=
  .seq .bnd (.seq (strPat true "no ")
    (.seq (.alt (strPat true "nudge") (strPat true "reminder")) (.seq (.opt (chCI 's')) .bnd)))

def oneNudgePat : Pat :=
  .seq .bnd (.seq (strPat true "one ")
    (.seq (.alt (strPat true "nudge") (strPat true "reminder")) .bnd))

def twoNudgePat : Pat :=
  .seq .bnd (.seq (.alt (strPat true "two") (strPat true "2"))
    (.seq (strPat true " ") (.seq (.alt (strPat true "nudges") (strPat true "reminders")) .bnd)))

/-- `parseRefineParams` of chat_v2.ts: best-effort field extraction; `some`
only when at least one field was recognized. -/

def parseRefineParams (text : String) : Option PlanParams :=
  let t := lowerStr text
  let cadence : Option String :=
    if rtest biweeklyPat t then some "biweekly"
    else if rtest (wordAltCI ["monthly"]) t then some "monthly"
    else if rtest (wordAltCI ["daily"]) t then some "daily"
    else if rtest (wordAltCI ["weekly"]) t then some "weekly"
    else none
  let due_day : Option String := (dayScan false t.data).map (fun tok => upperFirst ⟨tok⟩)
  let due_time : Option String := (timeScan false t.data).map (fun tok => (⟨tok⟩ : String))
  let channel : Option String :=
    if rtest (wordAltCI ["slack"]) t then some "slack"
    else if rtest (wordAltCI ["email"]) t then some "email"
    else if rtest inAppPat t then some "app"
    else none
  let anonymous : Option Bool := if rtest anonPat t then some true else none
  let reminders : Option Nat :=
    if rtest noNudgePat t then some 0
    else if rtest oneNudgePat t then some 1
    else if rtest twoNudgePat t then some 2
    else none
  let p : PlanParams := ⟨cadence, due_day, due_time, channel, anonymous, reminders⟩
  if cadence.isSome || due_day.isSome || due_time.isSome || channel.isSome ||
      anonymous.isSome || reminders.isSome then some p
  else none

inductive FollowKind where
  | accept | reject | refine | askinfo | compare | none
deriving DecidableEq, Repr

/-- `classifyFollowUp` of chat_v2.ts (evaluation order as in the source:
accept, reject, askinfo, compare, refine). -/

def classifyFollowUp (text : String) : FollowKind :=
  if isAffirmativeFollowUp text then .accept
  else if isNegativeFollowUp text then .reject
  else if isInfoFollowUp text then .askinfo
  else if isCompareFollowUp text then .compare
  else if (parseRefineParams text).isSome then .refine
  else .none

/-- The follow-up classifier as the (amended) spec describes it: regex
families evaluated in the priority order accept, reject, askinfo, compare,
refine, with refine firing only when at least one parameter is extracted. -/

def classifySpecC5 (text : String) : FollowKind :=
  if isAffirmativeFollowUp text then .accept
  else if isNegativeFollowUp text then .reject
  else if isInfoFollowUp text then .askinfo
  else if isCompareFollowUp text then .compare
  else if (parseRefineParams text).isSome then .refine
  else .none

/-- Drop trailing JS whitespace. -/

def dropTrailWs : List Char → List Char
  | [] => []
  | c :: cs =>
    match dropTrailWs cs with
    | [] => if isJsWs c then [] else [c]
    | r => c :: r

/-- `String.prototype.trim`. -/

def trimChars (s : List Char) : List Char := dropTrailWs (s.dropWhile isJsWs)

def trimString (s : String) : String := ⟨trimChars s.data⟩

/-- Global replace of `/\btool\b/` by the empty string; the boolean carries
word-ness of the previous character of the original string (the scan runs
on the lower-cased input, as in the source). -/

def removeToolWord : Bool → List Char → List Char
  | _, [] => []
  | w, 't' :: 'o' :: 'o' :: 'l' :: rest =>
    if !w && wordNext rest = false then removeToolWord true rest
    else 't' :: removeToolWord true ('o' :: 'o' :: 'l' :: rest)
  | _, c :: cs => c :: removeToolWord (isWordChar c) cs

def isAlnumLow (c : Char) : Bool := isLowerCh c || isDigitCh c

/-- Global replace of `/[^a-z0-9]+/` by a single space; the boolean is true
while inside a non-alphanumeric run already replaced. -/

def collapseNonAlnum : Bool → List Char → List Char
  | _, [] => []
  | inRun, c :: cs =>
    if isAlnumLow c then c :: collapseNonAlnum false cs
    else if inRun then collapseNonAlnum true cs
    else ' ' :: collapseNonAlnum true cs

/-- `norm` (identical in sanitize.ts, chat_v2.ts, tools.ts `normTitle`):
lower-case, remove the word "tool", collapse non-alphanumeric runs to
single spaces, trim. -/

def norm (s : String) : String :=
  ⟨trimChars (collapseNonAlnum false (removeToolWord false (s.data.map lowerCh)))⟩

/-- Split on single spaces (JS `split(" ")`). -/

def splitSp : List Char → List (List Char)
  | [] => [[]]
  | ' ' :: rest => [] :: splitSp rest
  | c :: rest =>
    match splitSp rest with
    | l :: ls => (c :: l) :: ls
    | [] => [[c]]

/-- `new Set(norm(s).split(" ").filter(Boolean))` as a dedup'd token list. -/

def tokenSet (s : String) : List (List Char) :=
  ((splitSp (norm s).data).filter (fun l => !l.isEmpty)).dedup

/-! ## Exact fractions

JS floating-point scores are modelled as exact fractions kept in
unreduced `num/den` form (so that kernel evaluation never needs gcd
normalisation); `toQ` gives their rational value, used in proofs. -/

structure Frac where
  num : Int
  den : Nat
deriving DecidableEq, Repr

def Frac.ofNat (n : Nat) : Frac := ⟨n, 1⟩

def Frac.add (a b : Frac) : Frac := ⟨a.num * b.den + b.num * a.den, a.den * b.den⟩

def Frac.mulNat (a : Frac) (k : Nat) : Frac := ⟨a.num * k, a.den⟩

/-- `a / b` for naturals, as a fraction. -/

def Frac.ratio (a b : Nat) : Frac := ⟨a, b⟩

def Frac.blt (a b : Frac) : Bool := a.num * (b.den : Int) < b.num * (a.den : Int)

def Frac.ble (a b : Frac) : Bool := a.num * (b.den : Int) ≤ b.num * (a.den : Int)

def Frac.toQ (a : Frac) : ℚ := (a.num : ℚ) / (a.den : ℚ)

/-! ## Intent matcher (netlify/functions/chat_v2.ts, lines 849–895)

`ToolRow.keywords` is modelled post-`toList` (a list of strings) and
`ToolRow.patterns` post-`new RegExp(·, "i")` as opaque test functions on
the raw user text (a malformed regex, caught by the source's try/catch,
is a function that never matches). -/

structure ToolRow where
  slug : String
  title : String
  summary : Option String := none
  why : Option String := none
  outcome : Option String := none
  content : Option String := none
  keywords : List String := []
  patterns : List (String → Bool) := []
  enabled : Bool := true

/-- JS `.` (not a line terminator). -/

def dotCh (c : Char) : Bool :=
  !(c = '\n' || c = '\r' || c = '\u2028' || c = '\u2029')

/-- Regex `/\bweekly\b.*\b(report|updates?)\b/i`. -/

def weeklyReportPat : Pat :=
  .seq .bnd (.seq (strPat true "weekly")
    (.seq .bnd (.seq (.star dotCh)
      (.seq .bnd (.seq
        (.alt (strPat true "report") (.seq (strPat true "update") (.opt (chCI 's'))))
        .bnd)))))

def containsSubAux (needle : List Char) : List Char → Bool
  | [] => needle.isEmpty
  | c :: cs => needle.isPrefixOf (c :: cs) || containsSubAux needle cs

/-- Substring containment, JS `String.prototype.includes`. -/

def containsSub (hay needle : String) : Bool := containsSubAux needle.data hay.data

/-- Aggregate per-tool score: pattern hits ×2 + keyword hits + 3×lexical
overlap, plus the weekly-report boost. -/

def toolScore (userText : String) (t : ToolRow) : Frac :=
  let text := userText
  let lower := lowerStr text
  let hasWeeklyReport := rtest weeklyReportPat text
  let title := trimString t.title
  let summary := trimString (t.summary.getD "")
  let why := trimString (t.why.getD "")
  let outcome := trimString (t.outcome.getD "")
  let content := trimString (t.content.getD "")
  let haystack := String.intercalate " " ([title, summary, why, outcome, content].map norm)
  let user := norm text
  let patternHits := (t.patterns.filter (fun p => p text)).length
  let kwHits :=
    ((t.keywords.map lowerStr).filter (fun k => k ≠ "" && containsSub lower k)).length
  let A := ((splitSp user.data).filter (fun l => !l.isEmpty)).dedup
  let B := ((splitSp haystack.data).filter (fun l => !l.isEmpty)).dedup
  let overlap := (A.filter (fun w => B.contains w)).length
  let lex : Frac := if B.length ≠ 0 then Frac.ratio overlap (max A.length B.length) else Frac.ofNat 0
  let base := (Frac.ofNat (patternHits * 2 + kwHits)).add (lex.mulNat 3)
  if hasWeeklyReport && rtest weeklyReportPat (lowerStr title) then base.add (Frac.ofNat 3)
  else base

/-- The `for (const t of tools)` best-tracking loop (skips tools whose
trimmed title is empty; replaces the best only on strictly greater score). -/

def bestLoop (text : String) : Option (ToolRow × Frac) → List ToolRow → Option (ToolRow × Frac)
  | best, [] => best
  | best, t :: ts =>
    if trimString t.title = "" then bestLoop text best ts
    else
      match best with
      | none => bestLoop text (some (t, toolScore text t)) ts
      | some (bt, bs) =>
        bestLoop text
          (if bs.blt (toolScore text t) then some (t, toolScore text t) else some (bt, bs)) ts

/-- `matchToolByIntent` of chat_v2.ts. -/

def matchToolByIntent (userText : String) (tools : List ToolRow) : Option ToolRow :=
  match bestLoop userText none tools with
  | none => none
  | some (t, s) => if s.blt (Frac.ofNat 1) then none else some t

/-- Rational value of a tool's aggregate score. -/

def toolScoreQ (text : String) (t : ToolRow) : ℚ := (toolScore text t).toQ

/-- The matcher as the (amended) spec describes it: among tools with a
nonempty trimmed title, return none unless the top aggregate score meets
the floor 1.0; otherwise return the tool with the strictly highest
aggregate score, ties kept by the first encountered. -/

def matchSpecC4 (text : String) (tools : List ToolRow) : Option ToolRow :=
  let el := tools.filter (fun t => trimString t.title ≠ "")
  match (el.map (toolScoreQ text)).max? with
  | none => none
  | some m => if m < 1 then none else el.find? (fun t => toolScoreQ text t = m)

section MatcherProof

variable (text : String)

/-- Combine an accumulated best `(bt, bs)` with the result of scanning the
remaining tools: the later result wins only on strictly greater score. -/

def accCombine (bt : ToolRow) (bs : Frac) : Option (ToolRow × Frac) → ToolRow × Frac
  | none => (bt, bs)
  | some (t', s') => if bs.toQ < s'.toQ then (t', s') else (bt, bs)

/-- First-of-maximum selection over a (pre-filtered) tool list, by rational
score value; an earlier tool wins ties. -/

def firstMaxF : List ToolRow → Option (ToolRow × Frac)
  | [] => none
  | t :: ts => some (accCombine t (toolScore text t) (firstMaxF ts))

end MatcherProof

/-- Claim C4 counterexample: a catalog whose only tool scores exactly 1.0
(one keyword hit) is below the claimed floor of 2.0, yet the matcher
returns it — the source floor is 1.0, not 2.0. -/

def cexToolC4 : ToolRow := { slug := "alp", title := "Alp", keywords := ["standup"] }

/-! ## Ordered-list renumbering (lib/sanitize.ts, fence-aware revision)

`renumberOrderedLists` splits on `/\r?\n/`, rewrites `^(\s*)(\d+)([.)])(\s+)(.*)$`
lines with a running counter, resets at fence markers and at blank lines
not followed by another numbered line, and joins with `"\n"`. -/

def consHead (c : Char) : List (List Char) → List (List Char)
  | [] => [[c]]
  | l :: ls => (c :: l) :: ls

/-- JS `text.split(/\r?\n/)`. -/

def splitCRLF : List Char → List (List Char)
  | [] => [[]]
  | [c] => if c = '\n' then [[], []] else [[c]]
  | c :: d :: rest =>
    if c = '\n' then [] :: splitCRLF (d :: rest)
    else if c = '\r' && d = '\n' then [] :: splitCRLF rest
    else consHead c (splitCRLF (d :: rest))

/-- `lines.join("\n")`. -/

def joinNl (ls : List (List Char)) : List Char := List.intercalate ['\n'] ls

/-- Line terminators excluded by JS `.` and `$`. -/

def isTermCh (c : Char) : Bool :=
  c = '\n' || c = '\r' || c = '\u2028' || c = '\u2029'

/-- Regex `/^\s*```/`. -/

def isFenceLine (l : List Char) : Bool := "```".data.isPrefixOf (l.dropWhile isJsWs)

/-- Regex `/^\s*$/`. -/

def isBlankLine (l : List Char) : Bool := l.all isJsWs

/-- Anchored match of `/^(\s*)(\d+)([.)])(\s+)(.*)$/`, returning the five
captured pieces. -/

def parseNumLine (l : List Char) :
    Option (List Char × List Char × Char × List Char × List Char) :=
  let pre := l.takeWhile isJsWs
  let r1 := l.dropWhile isJsWs
  let digits := r1.takeWhile isDigitCh
  let r2 := r1.dropWhile isDigitCh
  if digits.isEmpty then none
  else
    match r2 with
    | [] => none
    | d :: r3 =>
      if d = '.' || d = ')' then
        let sp := r3.takeWhile isJsWs
        let tail := r3.dropWhile isJsWs
        if sp.isEmpty then none
        else if tail.any isTermCh then none
        else some (pre, digits, d, sp, tail)
      else none

def digitChar (n : Nat) : Char := Char.ofNat (48 + n)

def natCharsAux : Nat → Nat → List Char
  | 0, _ => []
  | fuel + 1, n => if n < 10 then [digitChar n] else natCharsAux fuel (n / 10) ++ [digitChar (n % 10)]

/-- Decimal rendering of a natural (JS `${n}` for the renumber counter). -/

def natChars (n : Nat) : List Char := natCharsAux (n + 1) n

/-- The rewritten line `${pre}${n}${delim}${space}${rest}`. -/

def renderNumLine (n : Nat) (pre : List Char) (d : Char) (sp tail : List Char) : List Char :=
  pre ++ (natChars n ++ d :: (sp ++ tail))

/-- Lookahead: skip blank lines; is the next line numbered? -/

def nextNumbered (ls : List (List Char)) : Bool :=
  match ls.dropWhile isBlankLine with
  | [] => false
  | l :: _ => (parseNumLine l).isSome

/-- The renumbering loop (`inBlock`, counter `n`). -/

def renumGo : Bool → Nat → List (List Char) → List (List Char)
  | _, _, [] => []
  | inB, n, l :: rest =>
    if isFenceLine l then l :: renumGo false 0 rest
    else
      match parseNumLine l with
      | some (pre, _, d, sp, tail) =>
        let n' := if inB then n + 1 else 1
        renderNumLine n' pre d sp tail :: renumGo true n' rest
      | none =>
        if inB && isBlankLine l && nextNumbered rest then l :: renumGo inB n rest
        else l :: renumGo false 0 rest

/-- `renumberOrderedLists` of the fence-aware sanitize.ts revision. -/

def renumberOrderedLists (text : String) : String :=
  if text = "" then ""
  else ⟨joinNl (renumGo false 0 (splitCRLF text.data))⟩

/-- A line free of newline and carriage-return characters. -/

def lineOK (l : List Char) : Prop := ∀ c ∈ l, c ≠ '\n' ∧ c ≠ '\r'

/-! ## Tool registry adapters

`fetchToolRegistryFlexible` (lib/tools_flex.ts) and `getToolRegistry`
(lib/tools.ts).  The storage client's reply is modelled as a
`{data, error}` pair (the supabase result shape); an absent client is
`none`; `Except` models a thrown error. -/

/-- A JS value found in a boolean-ish flag column. -/

inductive JsVal where
  | b (v : Bool)
  | s (v : String)
  | n (v : Int)
deriving DecidableEq, Repr

/-- A JS value found in a keywords/patterns column: an array or a string. -/

inductive ColVal where
  | arr (vs : List String)
  | str (v : String)
deriving DecidableEq, Repr

structure FlexRow where
  title : Option String := none
  tool_name : Option String := none
  name : Option String := none
  display_name : Option String := none
  slug : Option String := none
  tool_slug : Option String := none
  code : Option String := none
  summary : Option String := none
  primary_use : Option String := none
  description : Option String := none
  why : Option String := none
  value_prop : Option String := none
  reason : Option String := none
  outcome : Option String := none
  result : Option String := none
  keywords : Option ColVal := none
  tags : Option ColVal := none
  search_terms : Option ColVal := none
  patterns : Option ColVal := none
  regex : Option ColVal := none
  matchers : Option ColVal := none
  enabled : Option JsVal := none
  is_enabled : Option JsVal := none
  active : Option JsVal := none
  is_active : Option JsVal := none
  status : Option JsVal := none

structure ToolDocNorm where
  slug : String
  title : String
  summary : Option String
  why : Option String
  outcome : Option String
  keywords : Option (List String)
  patterns : Option (List String)
  enabled : Bool
deriving Repr

def isAlnumAnyCase (c : Char) : Bool := isLowerCh c || isDigitCh c

/-- Global replace of `/[^a-z0-9]+/` by `-` (applied after lower-casing). -/

def collapseToDash : Bool → List Char → List Char
  | _, [] => []
  | inRun, c :: cs =>
    if isAlnumAnyCase c then c :: collapseToDash false cs
    else if inRun then collapseToDash true cs
    else '-' :: collapseToDash true cs

def dropTrailDash : List Char → List Char
  | [] => []
  | c :: cs =>
    match dropTrailDash cs with
    | [] => if c = '-' then [] else [c]
    | r => c :: r

/-- `kebab` of tools_flex.ts / chat_v2.ts. -/

def kebab (s : Option String) : String :=
  ⟨dropTrailDash ((collapseToDash false ((s.getD "").data.map lowerCh)).dropWhile (fun c => c = '-'))⟩

/-- `toList` of tools_flex.ts: arrays map-trim-filter; `{a,b}` pg text-array
strings and comma strings split on commas. -/

def toListFlex (x : Option ColVal) : List String :=
  match x with
  | none => []
  | some (.arr vs) => (vs.map trimString).filter (fun v => v ≠ "")
  | some (.str s) =>
    if s.startsWith "\x7b" && s.endsWith "\x7d" then
      (((s.drop 1).dropRight 1).splitOn ",").map trimString |>.filter (fun v => v ≠ "")
    else ((s.splitOn ",").map trimString).filter (fun v => v ≠ "")

/-- `coalesce`: first value that is present and non-empty as a string. -/

def coalesceStr (vals : List (Option String)) : Option String :=
  (vals.filterMap id).find? (fun s => s ≠ "")

/-- `isEnabledRow`: first flag column that is present decides; accepts
boolean, truthy string tokens, positive numbers; defaults to true. -/

def isEnabledRow (row : FlexRow) : Bool :=
  match row.enabled <|> row.is_enabled <|> row.active <|> row.is_active <|> row.status with
  | none => true
  | some (.b v) => v
  | some (.s v) =>
    ["1", "true", "t", "y", "yes", "active", "enabled"].contains (lowerStr v)
  | some (.n v) => v > 0

/-- `normalizeToolRow` of tools_flex.ts. -/

def normalizeToolRow (row : FlexRow) : Option ToolDocNorm :=
  let title := (coalesceStr [row.title, row.tool_name, row.name, row.display_name]).getD ""
  let slug :=
    (coalesceStr [row.slug, row.tool_slug, row.code, some (kebab (some title))]).getD ""
  if title = "" || slug = "" then none
  else
    let summary := coalesceStr [row.summary, row.primary_use, row.description]
    let why := coalesceStr [row.why, row.value_prop, row.reason]
    let outcome := coalesceStr [row.outcome, row.result]
    let keywords := toListFlex (row.keywords <|> row.tags <|> row.search_terms)
    let patterns := toListFlex (row.patterns <|> row.regex <|> row.matchers)
    some
      { slug := slug, title := title, summary := summary, why := why, outcome := outcome
        keywords := if keywords.length ≠ 0 then some keywords else none
        patterns := if patterns.length ≠ 0 then some patterns else none
        enabled := isEnabledRow row }

/-- The storage client's `{data, error}` reply for the flexible reader. -/

structure FlexQueryResult where
  data : Option (List FlexRow)
  error : Option String

/-- `fetchToolRegistryFlexible`: no client or any read failure yields `[]`,
otherwise normalized enabled rows. -/

def fetchToolRegistryFlexible (sb : Option Unit) (res : FlexQueryResult) : List ToolDocNorm :=
  match sb with
  | none => []
  | some _ =>
    match res.error, res.data with
    | some _, _ => []
    | none, none => []
    | none, some rows => (rows.filterMap normalizeToolRow).filter (fun t => t.enabled)

/-- Row shape of tools.ts (`select` with fixed columns). -/

structure ToolDocT where
  slug : String
  title : String
  summary : Option String := none
  why : Option String := none
  outcome : Option String := none
  keywords : List String := []
  patterns : List (String → Bool) := []
  enabled : Option Bool := none

structure TQueryResult where
  data : Option (List ToolDocT)
  error : Option String

/-- `getToolRegistry` of lib/tools.ts: returns the fresh cache if present;
otherwise `throw error` on a query error (modelled as `Except.error`),
else the rows with `enabled !== false`. -/

def getToolRegistry (cache : Option (List ToolDocT)) (res : TQueryResult) :
    Except String (List ToolDocT) :=
  match cache with
  | some items => .ok items
  | none =>
    match res.error with
    | some e => .error e
    | none => .ok ((res.data.getD []).filter (fun t => t.enabled ≠ some false))

/-! ## Reply normalizer and renderer (netlify/functions/chat.ts, composer
revision: `normalizeReply`, `renderMedia`, `renderOfferTool`, `processChat`)

The generation backend's raw JSON reply is modelled with every
provider-variant field as an `Option`; `none` is an absent/null field. -/

structure RawItem where
  title : Option String := none
  name : Option String := none
  by_ : Option String := none
  author : Option String := none
  writer : Option String := none
  why : Option String := none
  reason : Option String := none
  why_this : Option String := none
  takeaway : Option String := none
  key_takeaway : Option String := none
  tip : Option String := none

structure RawReply where
  mode : Option String := none
  message : Option String := none
  text : Option String := none
  header : Option String := none
  pitch : Option String := none
  items : Option (List RawItem) := none
  recommendations : Option (List RawItem) := none
  recs : Option (List RawItem) := none
  ask : Option String := none
  follow_up : Option String := none
  followUpQuestion : Option String := none
  followup : Option String := none
  tool_slug : Option String := none
  slug : Option String := none
  tool : Option String := none
  confidence : Option Frac := none
  score : Option Frac := none
  confirm_cta : Option String := none

structure NormItem where
  title : String
  by_ : Option String
  why : String
  takeaway : String
deriving DecidableEq, Repr

/-- The normalized reply (the `slots`/`requires_confirmation` fields of the
offer_tool variant are not modelled: no rendering path reads them). -/

inductive NormReply where
  | media (message : String) (items : List NormItem) (ask : Option String)
  | offer (tool_slug : String) (confidence : Frac) (message : String) (confirm_cta : String)
  | deep (message : String)
  | coach (message : String)
  | qa (message : String)
deriving DecidableEq, Repr

def normItem (it : RawItem) : NormItem :=
  { title := ((it.title <|> it.name).getD "")
    by_ := it.by_ <|> it.author <|> it.writer
    why := ((it.why <|> it.reason <|> it.why_this).getD "")
    takeaway := ((it.takeaway <|> it.key_takeaway <|> it.tip).getD "") }

/-- `normalizeReply`: per-mode field coalescing with non-empty message
fallbacks. -/

def normalizeReply (r : RawReply) : NormReply :=
  if r.mode = some "media_recs" then
    let items := ((r.items <|> r.recommendations <|> r.recs).getD []).map normItem
    let ask := r.ask <|> r.follow_up <|> r.followUpQuestion <|> r.followup
    let t := trimString ((r.message <|> r.header).getD "")
    .media (if t = "" then "Here are practical, nuts-and-bolts picks you can use immediately:" else t)
      items ask
  else if r.mode = some "offer_tool" then
    let t := trimString ((r.message <|> r.pitch).getD "")
    .offer ((r.tool_slug <|> r.slug <|> r.tool).getD "")
      (r.confidence.getD (r.score.getD (Frac.ofNat 0)))
      (if t = "" then "This tool looks like a good fit for this problem." else t)
      (r.confirm_cta.getD "Want me to set this up? (Yes / No)")
  else if r.mode = some "deep_dive" then
    let t := trimString (r.message.getD "")
    .deep (if t = "" then "Here’s a concrete next-step plan you can run today." else t)
  else
    let t := trimString ((r.message <|> r.text).getD "")
    let m := if t = "" then "Got it." else t
    if r.mode = some "coach" then .coach m else .qa m

def renderMediaLine (i : NormItem) : String :=
  let b := match i.by_ with
    | some v => if v = "" then "" else " (" ++ v ++ ")"
    | none => ""
  let w := if i.why = "" then "" else " — " ++ i.why
  let t := if i.takeaway = "" then "" else " _Takeaway:_ " ++ i.takeaway
  "- **" ++ (if i.title = "" then "Untitled" else i.title) ++ "**" ++ b ++ w ++ t

/-- `renderMedia`. -/

def renderMedia (message : String) (items : List NormItem) (ask : Option String) : String :=
  let header :=
    if message = "" then "Here are practical, nuts-and-bolts picks you can use immediately:"
    else message
  let askPart := match ask with
    | some a => if a = "" then "" else "\n\n" ++ a
    | none => ""
  trimString (header ++ "\n\n" ++ String.intercalate "\n" (items.map renderMediaLine) ++ askPart)

/-- JS `Math.round(q)` as floor(q + 1/2). -/

def jsRound (f : Frac) : Int := Int.fdiv (2 * f.num + f.den) (2 * f.den)

/-- `renderOfferTool`. -/

def renderOfferTool (tool_slug : String) (confidence : Frac) (message confirm_cta : String) :
    String :=
  let pct := jsRound (confidence.mulNat 100)
  let conf := if pct > 0 then " (confidence " ++ toString pct ++ "%)" else ""
  message ++ "\n\n**" ++ tool_slug ++ "**" ++ conf ++ "\n" ++ confirm_cta

def msgOf : NormReply → String
  | .media m _ _ => m
  | .offer _ _ m _ => m
  | .deep m => m
  | .coach m => m
  | .qa m => m

/-- The mode switch and empty-text guard at the end of `processChat`. -/

def finalTextFor (reply : NormReply) : String :=
  let text :=
    match reply with
    | .media m items ask => renderMedia m items ask
    | .offer slug conf m cta => renderOfferTool slug conf m cta
    | .deep m => m
    | .coach m => m
    | .qa m => m
  if text = "" || trimString text = "" then "Okay." else text

/-! ## Follow-up layer of the chat_v2 handler (lines 1180–1328)

The router+generator continuation (lines 1330–1499) is abstracted as two
oracle functions; the follow-up layer must return before either runs.
`getCookie`'s string decoding is the HTTP layer's concern: the looked-up
cookie slug arrives as an `Option String` parameter. -/

/-- JS `text.split("\n")`. -/

def splitNl : List Char → List (List Char)
  | [] => [[]]
  | c :: rest => if c = '\n' then [] :: splitNl rest else consHead c (splitNl rest)

/-- `tokenOverlap` of chat_v2.ts. -/

def tokenOverlap (a b : String) : Frac :=
  let A := tokenSet a
  let B := tokenSet b
  if A.length = 0 || B.length = 0 then Frac.ofNat 0
  else Frac.ratio ((A.filter (fun w => B.contains w)).length) (max A.length B.length)

/-- One line's match under `/^\s*Try\s*:\s*(.+)$/im`: optional whitespace,
`Try`, optional whitespace, colon, then the (trimmed) remainder. -/

def tryLineCandidate (line : List Char) : Option (List Char) :=
  let r1 := line.dropWhile isJsWs
  if "try".data.isPrefixOf (r1.map lowerCh) then
    let r2 := (r1.drop 3).dropWhile isJsWs
    match r2 with
    | ':' :: r3 =>
      let rest := r3.dropWhile isJsWs
      if rest.isEmpty || rest.any isTermCh then none else some rest
    | _ => none
  else none

def firstTryCandidate : List (List Char) → Option (List Char)
  | [] => none
  | l :: ls =>
    match tryLineCandidate l with
    | some c => some c
    | none => firstTryCandidate ls

/-- `detectToolFromAssistant` of chat_v2.ts: extract the first `Try:` line's
candidate title, then the best tool by (exact-normalized or token-overlap)
title similarity, accepted at ≥ 0.7. -/

def detectToolFromAssistant (assistantText : String) (tools : List ToolRow) : Option ToolRow :=
  if assistantText = "" then none
  else
    match firstTryCandidate (splitNl assistantText.data) with
    | none => none
    | some cand =>
      let candidate := trimString ⟨cand⟩
      if candidate = "" then none
      else
        let best := tools.foldl
          (fun best t =>
            let s : Frac :=
              if norm t.title = norm candidate then Frac.ofNat 1
              else tokenOverlap t.title candidate
            match best with
            | none => some (t, s)
            | some (bt, bs) => if bs.blt s then some (t, s) else some (bt, bs))
          none
        match best with
        | none => none
        | some (t, s) => if (Frac.ratio 7 10).ble s then some t else none

/-- JS `x || d` for an optional string whose empty value is falsy. -/

def jsOr (o : Option String) (d : String) : String :=
  match o with
  | some s => if s = "" then d else s
  | none => d

def capitalizeFirst (s : String) : String :=
  match s.data with
  | [] => ""
  | c :: cs => ⟨c.toUpper :: cs⟩

/-- `formatTryLine` of chat_v2.ts. -/

def formatTryLine (title : String) : String := "Try: " ++ title

/-- `renderPlanForTool` of chat_v2.ts (parameterised plan template). -/

def renderPlanForTool (t : ToolRow) (p : PlanParams) : String :=
  let outcome := jsOr t.outcome "reliable weekly signal without manual chasing"
  let cadence := jsOr p.cadence "weekly"
  let day : Option String :=
    match p.due_day with
    | some d => if d = "" then (if cadence = "weekly" then some "Friday" else none) else some d
    | none => if cadence = "weekly" then some "Friday" else none
  let time := jsOr p.due_time "3pm"
  let channel :=
    match p.channel with
    | some c => if c = "" then "App" else capitalizeFirst c
    | none => "App"
  let rem := p.reminders.getD 1
  let anon := if p.anonymous = some true then " (anonymous collection enabled)" else ""
  String.intercalate "\n"
    [ "Here’s the fastest path using **" ++ t.title ++ "**:"
    , ""
    , "- **Set the rhythm:** " ++
        (if cadence = "weekly" then "Every week"
         else if cadence = "biweekly" then "Every other week"
         else capitalizeFirst cadence) ++
        (match day with | some d => " on " ++ d | none => "") ++ " at " ++ time ++ "."
    , "- **Use the built-in template:** Wins, blockers, next week."
    , "- **Nudges:** " ++ toString rem ++ " reminder" ++ (if rem = 1 then "" else "s") ++
        " before the deadline via " ++ channel ++ "."
    , "- **Model the habit:** Post your own update first" ++ anon ++ "."
    , "- **Close the loop:** Share highlights to show value."
    , ""
    , "Result: " ++ outcome ++ "." ]

/-- `mergeParams`: JS object spread, new values win. -/

def mergeParams (a b : PlanParams) : PlanParams :=
  { cadence := b.cadence <|> a.cadence
    due_day := b.due_day <|> a.due_day
    due_time := b.due_time <|> a.due_time
    channel := b.channel <|> a.channel
    anonymous := b.anonymous <|> a.anonymous
    reminders := b.reminders <|> a.reminders }

/-- The `proposed` session object `{slug, title?, params?}`. -/

structure Proposed where
  slug : String
  title : Option String := none
  params : Option PlanParams := none

/-- Session memory row as read by `getMem`. -/

structure MemRow where
  last_reco_slug : Option String := none
  proposed : Option Proposed := none

def askInfoBlurb (t : ToolRow) : String :=
  String.intercalate "\n"
    [ "**What " ++ t.title ++ " does**"
    , "- Purpose: " ++ jsOr t.summary "collects quick updates with a simple template."
    , "- Why use it: " ++ jsOr t.why "reduces nagging and increases cadence consistency."
    , "- Outcome: " ++ jsOr t.outcome "you get a reliable weekly signal."
    , ""
    , "If you want to proceed, say \"yes\" or refine (e.g., \"biweekly via Slack on Fridays at 2pm\")." ]

inductive FollowOutcome where
  | short (route : String) (reco : Bool) (recoSlug : Option String) (body : String)
  | fallthrough

/-- The deterministic follow-up layer: classify, resolve a proposed tool
(memory, then last assistant `Try:`, then cookie), and short-circuit on
accept / refine / askinfo when the proposed slug resolves in the registry. -/

def followUpStage (userText : String) (mem : MemRow) (messages : List Msg)
    (cookieSlug : Option String) (tools : List ToolRow) : FollowOutcome :=
  let follow := classifyFollowUp userText
  let proposed0 : Option Proposed :=
    mem.proposed <|> (mem.last_reco_slug.map fun s => { slug := s })
  let proposed1 : Option Proposed :=
    match proposed0 with
    | some p => some p
    | none =>
      let lastAssistantText :=
        (((messages.reverse).find? (fun m => m.role = "assistant")).map Msg.content).getD ""
      if lastAssistantText ≠ "" then
        match detectToolFromAssistant lastAssistantText tools with
        | some det => some { slug := det.slug, title := some det.title, params := some {} }
        | none => none
      else none
  let proposed : Option Proposed :=
    match proposed1 with
    | some p => some p
    | none => cookieSlug.map fun s => { slug := s }
  match proposed with
  | none => .fallthrough
  | some p =>
    let chosen : Option ToolRow :=
      (tools.find? (fun t => t.slug = p.slug)) <|>
        (match p.title with
         | some ti => tools.find? (fun t => t.title = ti)
         | none => none)
    match follow, chosen with
    | .accept, some t =>
      let params := p.params.getD {}
      .short "tools" true (some t.slug)
        (renumberOrderedLists (renderPlanForTool t params ++ "\n\n" ++ formatTryLine t.title))
    | .refine, some t =>
      let delta := (parseRefineParams userText).getD {}
      let merged := mergeParams (p.params.getD {}) delta
      .short "tools" true (some t.slug)
        (renumberOrderedLists (renderPlanForTool t merged ++ "\n\n" ++ formatTryLine t.title))
    | .askinfo, some t => .short "coach" false none (askInfoBlurb t)
    | _, _ => .fallthrough

def routeToStr : Route → String
  | .qa => "qa"
  | .coach => "coach"
  | .tools => "tools"

/-- A whole turn: the follow-up layer, else the router + generator
continuation (chat_v2 lines 1330–1499, abstracted as oracles). -/

def turnWithFollowUp (router : String → List Msg → Route) (generate : Route → String)
    (userText : String) (mem : MemRow) (messages : List Msg)
    (cookieSlug : Option String) (tools : List ToolRow) : String × String :=
  match followUpStage userText mem messages cookieSlug tools with
  | .short r _ _ body => (r, body)
  | .fallthrough =>
    let d := router userText messages
    (routeToStr d, generate d)

def wrTool : ToolRow :=
  { slug := "weekly-report", title := "Weekly Report"
    outcome := some "a reliable weekly signal" }

/-! ## chat.ts handler enforcement (lines 157–188) and its lib/tools.ts
helpers.  `ToolDocT.keywords`/`patterns` are modelled post-`asList` /
post-`new RegExp` as in `ToolRow`. -/

/-- `matchToolByIntent` of lib/tools.ts: first tool with a matching regex
pattern; else best keyword-overlap count, returned only when ≥ 2. -/

def matchToolByIntentKwLoop (text : String) :
    List ToolDocT → Option ToolDocT → Nat → Option ToolDocT
  | [], pick, best => if pick.isSome && best ≥ 2 then pick else none
  | t :: ts, pick, best =>
    let kws := t.keywords.map lowerStr
    let overlap := (kws.filter (fun k => k.length ≥ 4 && containsSub text k)).length
    if overlap > best then matchToolByIntentKwLoop text ts (some t) overlap
    else matchToolByIntentKwLoop text ts pick best

def matchToolByIntentV1 (userText : String) (tools : List ToolDocT) : Option ToolDocT :=
  let text := lowerStr userText
  match tools.find? (fun t => t.patterns.any (fun p => p text)) with
  | some t => some t
  | none => matchToolByIntentKwLoop text tools none 0

/-- Tokens of an already-normalized string (`split(" ").filter(Boolean)` as
a set). -/

def tokensOfNormed (s : String) : List (List Char) :=
  ((splitSp s.data).filter (fun l => !l.isEmpty)).dedup

/-- `findByTitle` of lib/tools.ts: exact normalized-title match returns
immediately; otherwise best token-overlap score (`overlap / max(1, |title
tokens|)`), accepted at ≥ 0.6. -/

def findByTitleLoop (target : String) :
    List ToolDocT → Option ToolDocT → Frac → Option ToolDocT
  | [], best, bestScore => if (Frac.ratio 6 10).ble bestScore then best else none
  | t :: ts, best, bestScore =>
    if norm t.title = target then some t
    else
      let ta := tokensOfNormed target
      let na := tokensOfNormed (norm t.title)
      let overlap := (ta.filter (fun w => na.contains w)).length
      let score := Frac.ratio overlap (max 1 na.length)
      if bestScore.blt score then findByTitleLoop target ts (some t) score
      else findByTitleLoop target ts best bestScore

def findByTitle (title : String) (tools : List ToolDocT) : Option ToolDocT :=
  findByTitleLoop (norm title) tools none (Frac.ofNat 0)

def tryCaptureCh (c : Char) : Bool :=
  !(c = '\n' || c = '—' || c = '–' || c = '-')

/-- One anchor position's attempt for `/(^|\n)\s*Try:\s*([^\n—–-]+)/i`. -/

def tryTitleAt (s : List Char) : Option (List Char) :=
  let r := s.dropWhile isJsWs
  if "try:".data.isPrefixOf (r.map lowerCh) then
    let r2 := (r.drop 4).dropWhile isJsWs
    let run := r2.takeWhile tryCaptureCh
    if run.isEmpty then none else some run
  else none

def extractTryGo : Bool → List Char → Option (List Char)
  | anchored, s =>
    match (if anchored then tryTitleAt s else none) with
    | some r => some r
    | none =>
      match s with
      | [] => none
      | c :: cs => extractTryGo (c = '\n') cs

/-- `extractTryTitle` of lib/tools.ts. -/

def extractTryTitle (assistantText : String) : Option String :=
  (extractTryGo true assistantText.data).map (fun r => trimString ⟨r⟩)

/-- `detectToolFromAssistant` of lib/tools.ts. -/

def detectToolFromAssistantV1 (assistantText : String) (tools : List ToolDocT) :
    Option ToolDocT :=
  match extractTryTitle assistantText with
  | none => none
  | some title => if title = "" then none else findByTitle title tools

/-- `formatTryLine` of lib/tools.ts. -/

def formatTryLineV1 (t : ToolDocT) : String :=
  "Try: " ++ t.title ++ " — why: " ++ jsOr t.why "helps you get this done reliably" ++
    ". Expected outcome: " ++ jsOr t.outcome "faster progress with less manual effort" ++ "."

/-- `renderPlanForTool` of chat.ts (static five-step plan). -/

def renderPlanForToolC (t : ToolDocT) : String :=
  String.intercalate "\n"
    [ "Here’s the fastest path using **" ++ t.title ++ "**:"
    , ""
    , "- **Set the rhythm:** Pick one submission deadline (e.g., Fridays 3pm)."
    , "- **Use the built-in template:** Keep it to wins, blockers, next week."
    , "- **Auto-nudge once:** Let the tool send a single reminder before the deadline."
    , "- **Model the habit:** Post your own update first."
    , "- **Close the loop:** Share highlights next week to show the value."
    , ""
    , "Result: " ++ jsOr t.outcome "reliable weekly signal without manual chasing or nagging" ++ "." ]

/-- Collapse runs of 3+ newlines to exactly two (`replace(/\n{3,}/g, "\n\n")`);
the counter is the current run length, capped at 2. -/

def collapseNl : Nat → List Char → List Char
  | _, [] => []
  | seen, c :: cs =>
    if c = '\n' then
      if seen < 2 then '\n' :: collapseNl (seen + 1) cs else collapseNl seen cs
    else c :: collapseNl 0 cs

/-- Regex `/^\s*Try:/i`. -/

def isTryLine (l : List Char) : Bool := "try:".data.isPrefixOf ((l.dropWhile isJsWs).map lowerCh)

/-- `stripAllTryLines` of chat.ts (filter, join, collapse blank runs, trim). -/

def stripAllTryLines (text : String) : String :=
  ⟨trimChars (collapseNl 0 (joinNl ((splitNl text.data).filter (fun l => !isTryLine l))))⟩

def domCh (c : Char) : Bool := isLowerCh (lowerCh c) || isDigitCh c || c = '-'

/-- Regex `/\b[a-z0-9-]+\.(?:com|io|ai|app|co|org|net)\b/i` as a test. -/

def domainTestPat : Pat :=
  .seq .bnd (.seq (.cls domCh) (.seq (.star domCh) (.seq (.cls (fun c => c = '.'))
    (.seq (altWordsCI ["com", "io", "ai", "app", "co", "org", "net"]) .bnd))))

/-- Regex `/\bhttps?:\/\//i`. -/

def httpPat : Pat :=
  .seq .bnd (.seq (strPat true "http") (.seq (.opt (chCI 's')) (strPat true "://")))

/-- `stripExternalLinks` of chat.ts: drop lines containing a domain-looking
token or an http(s) URL. -/

def stripExternalLinks (text : String) : String :=
  if text = "" then ""
  else
    ⟨trimChars (collapseNl 0 (joinNl ((splitNl text.data).filter
      (fun l => !(searchFrom domainTestPat false l || searchFrom httpPat false l)))))⟩

def findPriorAssistantTool (messages : List Msg) (tools : List ToolDocT) : Option ToolDocT :=
  match (messages.reverse).find? (fun m => m.role = "assistant") with
  | some m => detectToolFromAssistantV1 m.content tools
  | none => none

def matchFromUserHistory (messages : List Msg) (tools : List ToolDocT) : Option ToolDocT :=
  let history := String.intercalate "\n\n"
    ((messages.filter (fun m => m.role = "user")).map Msg.content)
  if history ≠ "" then matchToolByIntentV1 history tools else none

/-- The internal-only enforcement stage of the chat.ts handler: resolve a
tool (intent match, assistant Try line, prior assistant turn, user
history); if found, the final text is the deterministic plan plus Try
line, otherwise the agent text with Try lines and external links
stripped.  Returns (finalText, recoSlug). -/

def enforceStage (userText : String) (messages : List Msg) (tools : List ToolDocT)
    (agentText : String) : String × Option String :=
  let chosen :=
    matchToolByIntentV1 userText tools <|>
      detectToolFromAssistantV1 agentText tools <|>
        findPriorAssistantTool messages tools <|>
          matchFromUserHistory messages tools
  match chosen with
  | some t => (trimString (renderPlanForToolC t ++ "\n\n" ++ formatTryLineV1 t), some t.slug)
  | none => (stripExternalLinks (stripAllTryLines agentText), none)

def wrToolT : ToolDocT :=
  { slug := "weekly-report", title := "Weekly Report", patterns := [fun _ => true] }

/-! ## Policy sanitizer (lib/sanitize.ts; identical revision in part_007)

`stripAllTryLines` here is the same filter/join/collapse/trim body as the
chat.ts copy defined above.  Brand-candidate extraction mirrors the
leftmost-greedy non-overlapping `exec` loop of `extractBrandCandidates`
with explicit fuel (one unit per consumed character). -/

/-- `buildAllowlist`: normalized titles of the catalog (a JS `Set`). -/

def buildAllowlist (titles : List String) : List String :=
  ((titles.filter (fun t => t ≠ "")).map norm).dedup

/-- `isAllowedTitle`: exact normalized membership, or token overlap ≥ 0.7
against some allow-list entry. -/

def isAllowedTitle (candidate : List Char) (allow : List String) : Bool :=
  let nc := norm ⟨candidate⟩
  if nc = "" then false
  else if allow.contains nc then true
  else
    allow.any (fun a =>
      let ca := (splitSp nc.data).dedup
      let aa := (splitSp a.data).dedup
      let overlap := (ca.filter (fun w => aa.contains w)).length
      (Frac.ratio 7 10).ble (Frac.ratio overlap (max (max aa.length ca.length) 1)))

/-- One tld alternative: case-insensitive prefix with a word boundary after. -/

def tldOk (t : String) (r2 : List Char) : Bool :=
  t.data.isPrefixOf (r2.map lowerCh) && !wordNext (r2.drop t.data.length)

/-- `/\b[a-z0-9-]+\.(?:com|io|ai|app|co|org|net)\b/gi`: the first tld (in
alternation order) that is a case-insensitive prefix with a word boundary
after it; returns consumed length. -/

def tldAt (r2 : List Char) : Option Nat :=
  if tldOk "com" r2 then some 3
  else if tldOk "io" r2 then some 2
  else if tldOk "ai" r2 then some 2
  else if tldOk "app" r2 then some 3
  else if tldOk "co" r2 then some 2
  else if tldOk "org" r2 then some 3
  else if tldOk "net" r2 then some 3
  else none

/-- One attempt of the domain regex at the current position: boundary, a
maximal `[a-z0-9-]+` run, a dot, a tld; returns (match length, rest). -/

def matchDomAt (w : Bool) (s : List Char) : Option (Nat × List Char) :=
  match s with
  | [] => none
  | c :: _ =>
    if w = isWordChar c then none
    else
      let run := s.takeWhile domCh
      if run.isEmpty then none
      else
        match s.drop run.length with
        | d :: r2 =>
          if d = '.' then
            match tldAt r2 with
            | some tl => some (run.length + 1 + tl, r2.drop tl)
            | none => none
          else none
        | [] => none

/-- The `exec` loop for domains (fuel ≥ input length). -/

def domScanF : Nat → Bool → List Char → List (List Char)
  | 0, _, _ => []
  | _ + 1, _, [] => []
  | fuel + 1, w, c :: cs =>
    match matchDomAt w (c :: cs) with
    | some (len, rest) => (c :: cs).take len :: domScanF fuel true rest
    | none => domScanF fuel (isWordChar c) cs

/-- One repetition `(?:\s+[A-Z][a-z0-9]+)` of the capitalized-phrase regex:
maximal whitespace, an uppercase letter, a maximal `[a-z0-9]+` run. -/

def matchRep (r : List Char) : Option Nat :=
  let wsrun := r.takeWhile isJsWs
  if wsrun.isEmpty then none
  else
    match r.drop wsrun.length with
    | c :: cs =>
      if isUpperCh c then
        let run := cs.takeWhile isAlnumLow
        if run.isEmpty then none else some (wsrun.length + 1 + run.length)
      else none
    | [] => none

/-- Candidate end positions of the capitalized-phrase regex, greedy order:
two repetitions first, then one, then none. -/

def capCands (e0 : Nat) : Option Nat → (Nat → Option Nat) → List Nat
  | none, _ => [e0]
  | some d1, r2 =>
    match r2 d1 with
    | none => [e0 + d1, e0]
    | some d2 => [e0 + d1 + d2, e0 + d1, e0]

/-- The trailing `\b` of the capitalized-phrase regex: the first candidate
end position (greedy order) with a word boundary. -/

def capPick (s : List Char) (cands : List Nat) : Option (Nat × List Char) :=
  match cands.find? (fun e => !wordNext (s.drop e)) with
  | some e => some (e, s.drop e)
  | none => none

/-- One attempt of `/\b([A-Z][a-z0-9]+(?:\s+[A-Z][a-z0-9]+){0,2})\b/g`:
greedy two-then-one-then-zero repetitions, first end with a boundary. -/

def matchCapAt (w : Bool) (s : List Char) : Option (Nat × List Char) :=
  match s with
  | [] => none
  | c :: cs =>
    if w then none
    else if isUpperCh c then
      let run1 := cs.takeWhile isAlnumLow
      if run1.isEmpty then none
      else
        let e0 := 1 + run1.length
        capPick s (capCands e0 (matchRep (s.drop e0)) (fun d1 => matchRep (s.drop (e0 + d1))))
    else none

/-- The `exec` loop for capitalized phrases. -/

def capScanF : Nat → Bool → List Char → List (List Char)
  | 0, _, _ => []
  | _ + 1, _, [] => []
  | fuel + 1, w, c :: cs =>
    match matchCapAt w (c :: cs) with
    | some (len, rest) => (c :: cs).take len :: capScanF fuel true rest
    | none => capScanF fuel (isWordChar c) cs

def capStopList : List String :=
  ["I", "We", "Our", "A", "An", "The", "This", "That",
   "Monday", "Tuesday", "Wednesday", "Thursday", "Friday", "Saturday", "Sunday"]

/-- `extractBrandCandidates`: all domain matches, then all capitalized
phrases (trimmed) outside the stop list. -/

def extractBrandCandidates (line : List Char) : List (List Char) :=
  domScanF line.length false line ++
    ((capScanF line.length false line).map trimChars).filter
      (fun ph => !(capStopList.map String.data).contains ph)

/-- Hint regex `/\b(use|via|choose|pick|select|set\s*up|setup|install|integrate|connect|leverage|with)\b/i`. -/

def hintVerbPat : Pat :=
  .seq .bnd (.seq
    (altList
      [ strPat true "use", strPat true "via", strPat true "choose", strPat true "pick"
      , strPat true "select"
      , .seq (strPat true "set") (.seq (.star isJsWs) (strPat true "up"))
      , strPat true "setup", strPat true "install", strPat true "integrate"
      , strPat true "connect", strPat true "leverage", strPat true "with" ])
    .bnd)

/-- Hint regex `/\b(form|tool|app|bot|platform|software|plug[-\s]?in)\b/i`. -/

def hintToolVocabPat : Pat :=
  .seq .bnd (.seq
    (altList
      [ strPat true "form", strPat true "tool", strPat true "app", strPat true "bot"
      , strPat true "platform", strPat true "software"
      , .seq (strPat true "plug")
          (.seq (.opt (.cls (fun c => c = '-' || isJsWs c))) (strPat true "in")) ])
    .bnd)

/-- Hint regex `/\bstand[-\s]?up|check[-\s]?in|report|updates?\b/i` — note
the `\b` binds only to the first and last alternatives. -/

def hintReportPat : Pat :=
  altList
    [ .seq .bnd (.seq (strPat true "stand")
        (.seq (.opt (.cls (fun c => c = '-' || isJsWs c))) (strPat true "up")))
    , .seq (strPat true "check")
        (.seq (.opt (.cls (fun c => c = '-' || isJsWs c))) (strPat true "in"))
    , strPat true "report"
    , .seq (strPat true "update") (.seq (.opt (chCI 's')) .bnd) ]

/-- Hint regex `/\b(or|alternatively)\b/i`. -/

def hintOrPat : Pat := wordAltCI ["or", "alternatively"]

/-- `isExternalToolLine`: a hint phrase plus some brand-like candidate not
on the allow-list. -/

def isExternalToolLine (line : List Char) (allow : List String) : Bool :=
  let hint :=
    searchFrom hintVerbPat false line || searchFrom hintToolVocabPat false line ||
      searchFrom hintReportPat false line || searchFrom hintOrPat false line ||
        searchFrom httpPat false line || searchFrom domainTestPat false line
  if !hint then false
  else
    let brands := extractBrandCandidates line
    if brands.isEmpty then false
    else brands.any (fun b => !isAllowedTitle b allow)

/-- `removeExternalToolMentions`: drop flagged lines, join, collapse blank
runs, trim. -/

def removeExternalToolMentions (text : String) (allow : List String) : String :=
  if text = "" then ""
  else
    ⟨trimChars (collapseNl 0 (joinNl
      ((splitNl text.data).filter (fun ln => !isExternalToolLine ln allow))))⟩

/-! ## `enforceInternalTool` (sanitize.ts 109–135)

`genericToolRe = /^\s*(?:[-•]|\d+[\.\)])?\s*(?:pick|choose|use|leverage|set\s*up|setup|select)\b.*\b(tool|form|doc|sheet|board|workspace|check[-\s]?in app|task tracker|team chat)\b/i`
The alternatives of each group are pairwise structurally exclusive at a
given position, so the backtracking order reduces to: optional bullet
greedy, maximal whitespace runs, and a greedy `.*` scanned from the
longest extent downward. -/

def prefixCI (pat : String) (s : List Char) : Bool :=
  pat.data.isPrefixOf (s.map lowerCh)

/-- `(?:[-•]|\d+[\.\)])` at the head of `s`; returns consumed length. -/

def bulletAt (s : List Char) : Option Nat :=
  match s with
  | [] => none
  | c :: _ =>
    if c = '-' || c = '•' then some 1
    else
      let run := s.takeWhile isDigitCh
      if run.isEmpty then none
      else
        match s.drop run.length with
        | d :: _ => if d = '.' || d = ')' then some (run.length + 1) else none
        | [] => none

/-- `(?:pick|choose|use|leverage|set\s*up|setup|select)` at the head of `s`. -/

def verbAt (s : List Char) : Option Nat :=
  if prefixCI "pick" s then some 4
  else if prefixCI "choose" s then some 6
  else if prefixCI "use" s then some 3
  else if prefixCI "leverage" s then some 8
  else if prefixCI "set" s then
    let r := s.drop 3
    let w := (r.takeWhile isJsWs).length
    if prefixCI "up" (r.drop w) then some (3 + w + 2) else none
  else if prefixCI "select" s then some 6
  else none

/-- `(tool|form|doc|sheet|board|workspace|check[-\s]?in app|task tracker|team chat)`
at the head of `s` (greedy on the inner `[-\s]?`). -/

def kwTry (s : List Char) : Option Nat :=
  if prefixCI "tool" s then some 4
  else if prefixCI "form" s then some 4
  else if prefixCI "doc" s then some 3
  else if prefixCI "sheet" s then some 5
  else if prefixCI "board" s then some 5
  else if prefixCI "workspace" s then some 9
  else if prefixCI "check" s then
    match s.drop 5 with
    | c :: r2 =>
      if (c = '-' || isJsWs c) && prefixCI "in app" r2 then some 12
      else if prefixCI "in app" (c :: r2) then some 11
      else none
    | [] => none
  else if prefixCI "task tracker" s then some 12
  else if prefixCI "team chat" s then some 9
  else none

/-- `\b` at position `p` of `l`, where the following token starts with a
word character: the previous character must be non-word (or absent). -/

def boundaryBefore (l : List Char) (p : Nat) : Bool :=
  match (l.take p).getLast? with
  | some c => !isWordChar c
  | none => true

/-- `\b(kw)\b` starting at position `p`; returns the keyword length. -/

def kwMatchAt (l : List Char) (p : Nat) : Option Nat :=
  if boundaryBefore l p then
    match kwTry (l.drop p) with
    | some n => if wordNext (l.drop (p + n)) then none else some n
    | none => none
  else none

/-- Greedy `.*\b(kw)\b` after the verb: the largest reachable keyword start
wins; returns the overall match end. -/

def genericAfterVerb (l : List Char) (verbEnd : Nat) : Option Nat :=
  let dotRun := ((l.drop verbEnd).takeWhile dotCh).length
  ((List.range (dotRun + 1)).map (fun i => verbEnd + dotRun - i)).findSome?
    (fun p => (kwMatchAt l p).map (fun n => p + n))

/-- `\s*` then verb (with its trailing `\b`) then `.*\b(kw)\b`, starting
at `pos`. -/

def genericFrom (l : List Char) (pos : Nat) : Option Nat :=
  let pos2 := pos + ((l.drop pos).takeWhile isJsWs).length
  match verbAt (l.drop pos2) with
  | some vn =>
    if wordNext (l.drop (pos2 + vn)) then none
    else genericAfterVerb l (pos2 + vn)
  | none => none

/-- Length of the `genericToolRe` match (anchored at the line start), if any. -/

def matchGenericLen (l : List Char) : Option Nat :=
  let ws1 := (l.takeWhile isJsWs).length
  match bulletAt (l.drop ws1) with
  | some bn =>
    match genericFrom l (ws1 + bn) with
    | some r => some r
    | none => genericFrom l ws1
  | none => genericFrom l ws1

/-- `enforceInternalTool`: drop external-brand lines, rewrite generic
"pick/use a tool" lines to the house tool, join, collapse, trim. -/

def enforceInternalTool (text : String) (allow : List String)
    (chosenTitle : String) : String :=
  if text = "" then ""
  else
    let result := (splitNl text.data).filterMap (fun ln =>
      if isExternalToolLine ln allow then none
      else
        match matchGenericLen ln with
        | some len =>
          some (("Use **" ++ chosenTitle ++ "** for this").data ++ ln.drop len)
        | none => some ln)
    ⟨trimChars (collapseNl 0 (joinNl result))⟩

/-- `sanitizeNeutralGuidance`: strip Try lines and external mentions, then
renumber ordered lists. -/

def sanitizeNeutralGuidance (text : String) (allow : List String) : String :=
  renumberOrderedLists (removeExternalToolMentions (stripAllTryLines text) allow)

/-- Right-trim relation: each output line is a prefix of the corresponding
input line up to trailing whitespace, and the output may stop early. -/

inductive PrefixRel : List (List Char) → List (List Char) → Prop
  | nil (l : List (List Char)) : PrefixRel [] l
  | cons (x b : List Char) (xs ys : List (List Char))
      (hb : ∀ c ∈ b, isJsWs c = true) (h : PrefixRel xs ys) :
      PrefixRel (x :: xs) ((x ++ b) :: ys)

/-- Claim C2: for every user text matching the media-request pattern, the
Router's `route` function returns route = qa (never tools), regardless of
the LLM scorer's outcome, the message history, or the sticky slug. -/

theorem router_media_guard_forces_qa (scored : Option ScoredRoute) (userText : String)
    (messages : List Msg) (lastRecoSlug : Option String)
    (h : isMediaAsk userText = true) :
    (route scored userText messages lastRecoSlug).route = Route.qa := by
  simp [route, h]

/-- Witness for C2 at the spec's example input "recommend a book about
delegation", with an adversarial scorer that votes tools. -/

theorem router_media_guard_forces_qa_witness :
    isMediaAsk "recommend a book about delegation" = true ∧
    (route (some ⟨Route.tools⟩) "recommend a book about delegation" [] (some "weekly-report")).route
      = Route.qa :=
  ⟨by decide, router_media_guard_forces_qa (some ⟨Route.tools⟩) _ [] (some "weekly-report") (by decide)⟩

/-- Claim C5 counterexample: "why weekly" contains a recognizable refine
parameter (cadence weekly) and matches the askinfo family ("why"), yet the
classifier returns askinfo, not refine — refine is evaluated last, not
third. -/

theorem classify_order_counterexample :
    isInfoFollowUp "why weekly" = true ∧
    (parseRefineParams "why weekly").isSome = true ∧
    classifyFollowUp "why weekly" = FollowKind.askinfo ∧
    classifyFollowUp "why weekly" ≠ FollowKind.refine := by
  refine ⟨by decide, by decide, by decide, by decide⟩

/-- Claim C5 (amended): the classifier evaluates its categories in the
priority order accept, reject, askinfo, compare, refine (none when no
family matches); in particular a text matching both the refine and the
askinfo/compare families is classified askinfo/compare, not refine. -/

theorem classifyFollowUp_priority_order :
    ∀ t : String, classifyFollowUp t = classifySpecC5 t := by
  intro t; rfl

/-! ## Text utilities shared by chat_v2.ts / sanitize.ts / tools.ts -/

theorem length_dropWhile_le' (p : Char → Bool) (l : List Char) :
    (l.dropWhile p).length ≤ l.length := by
  induction l with
  | nil => simp [List.dropWhile]
  | cons c cs ih =>
    simp only [List.dropWhile]
    split
    · exact Nat.le_succ_of_le ih
    · simp

theorem Frac.blt_iff (a b : Frac) (ha : a.den ≠ 0) (hb : b.den ≠ 0) :
    a.blt b = true ↔ a.toQ < b.toQ := by
  have ha' : (0 : ℚ) < (a.den : ℚ) := by exact_mod_cast Nat.pos_of_ne_zero ha
  have hb' : (0 : ℚ) < (b.den : ℚ) := by exact_mod_cast Nat.pos_of_ne_zero hb
  rw [Frac.blt, Frac.toQ, Frac.toQ, div_lt_div_iff₀ ha' hb', decide_eq_true_eq]
  constructor
  · intro h
    exact_mod_cast h
  · intro h
    exact_mod_cast h

theorem Frac.add_den (a b : Frac) (ha : a.den ≠ 0) (hb : b.den ≠ 0) :
    (a.add b).den ≠ 0 := Nat.mul_ne_zero ha hb

theorem lex_den_ne_zero (o a b : Nat) (c : Prop) [Decidable c] (hc : c → b ≠ 0) :
    (if c then Frac.ratio o (max a b) else Frac.ofNat 0).den ≠ 0 := by
  split
  · next hcond =>
      simp only [Frac.ratio]
      intro h
      have hb := hc hcond
      have := Nat.le_max_right a b
      omega
  · simp [Frac.ofNat]

theorem toolScore_den_ne_zero (text : String) (t : ToolRow) :
    (toolScore text t).den ≠ 0 := by
  unfold toolScore
  dsimp only
  split
  · apply Frac.add_den
    · apply Frac.add_den
      · simp [Frac.ofNat]
      · simp only [Frac.mulNat]
        exact lex_den_ne_zero _ _ _ _ (fun h => h)
    · simp [Frac.ofNat]
  · apply Frac.add_den
    · simp [Frac.ofNat]
    · simp only [Frac.mulNat]
      exact lex_den_ne_zero _ _ _ _ (fun h => h)

section MatcherProofFacts

variable (text : String)

theorem accCombine_none (bt : ToolRow) (bs : Frac) : accCombine bt bs none = (bt, bs) := rfl

theorem accCombine_some (bt : ToolRow) (bs : Frac) (t : ToolRow) (s : Frac) :
    accCombine bt bs (some (t, s)) = if bs.toQ < s.toQ then (t, s) else (bt, bs) := rfl

theorem firstMaxF_eq_none_iff (l : List ToolRow) : firstMaxF text l = none ↔ l = [] := by
  cases l with
  | nil => simp [firstMaxF]
  | cons t ts => simp [firstMaxF]

theorem firstMaxF_sound (l : List ToolRow) (t : ToolRow) (s : Frac)
    (h : firstMaxF text l = some (t, s)) :
    s = toolScore text t ∧
      (l.map (toolScoreQ text)).max? = some s.toQ ∧
      l.find? (fun u => toolScoreQ text u = s.toQ) = some t := by
  induction l generalizing t s with
  | nil => simp [firstMaxF] at h
  | cons a as ih =>
    rw [firstMaxF] at h
    injection h with h2
    cases hfm : firstMaxF text as with
    | none =>
      rw [hfm, accCombine_none] at h2
      have has : as = [] := (firstMaxF_eq_none_iff text as).mp hfm
      subst has
      injection h2 with ht hs
      rw [← ht, ← hs]
      refine ⟨rfl, by simp [toolScoreQ], by simp [List.find?, toolScoreQ]⟩
    | some p =>
      obtain ⟨t', s'⟩ := p
      rw [hfm, accCombine_some] at h2
      obtain ⟨hs', hmax', hfind'⟩ := ih t' s' hfm
      by_cases hlt : (toolScore text a).toQ < s'.toQ
      · rw [if_pos hlt] at h2
        injection h2 with ht hs
        rw [← ht, ← hs]
        refine ⟨hs', ?_, ?_⟩
        · rw [List.map_cons, List.max?_cons, hmax']
          simp only [Option.elim]
          congr 1
          exact max_eq_right (le_of_lt hlt)
        · rw [List.find?]
          have hne : toolScoreQ text a ≠ s'.toQ := ne_of_lt hlt
          rw [decide_eq_false (by simpa using hne)]
          exact hfind'
      · rw [if_neg hlt] at h2
        injection h2 with ht hs
        rw [← ht, ← hs]
        refine ⟨rfl, ?_, ?_⟩
        · rw [List.map_cons, List.max?_cons, hmax']
          simp only [Option.elim]
          congr 1
          exact max_eq_left (not_lt.mp hlt)
        · rw [List.find?]
          simp [toolScoreQ]

theorem accCombine_some' (bt : ToolRow) (bs : Frac) (p : ToolRow × Frac) :
    accCombine bt bs (some p) = if bs.toQ < p.2.toQ then p else (bt, bs) := by
  obtain ⟨t, s⟩ := p; rfl

theorem accCombine_snd_ge (t : ToolRow) (s : Frac) (r : Option (ToolRow × Frac)) :
    s.toQ ≤ (accCombine t s r).2.toQ := by
  cases r with
  | none => exact le_refl _
  | some p =>
    rw [accCombine_some']
    split_ifs with h
    · exact le_of_lt h
    · exact le_refl _

theorem bestLoop_some_eq (ts : List ToolRow) : ∀ (bt : ToolRow) (bs : Frac), bs.den ≠ 0 →
    bestLoop text (some (bt, bs)) ts =
      some (accCombine bt bs (firstMaxF text (ts.filter (fun t => trimString t.title ≠ "")))) := by
  induction ts with
  | nil => intro bt bs _; simp [bestLoop, firstMaxF, accCombine_none]
  | cons t ts ih =>
    intro bt bs hbs
    by_cases hskip : trimString t.title = ""
    · rw [bestLoop, if_pos hskip, List.filter_cons_of_neg (by simpa using hskip)]
      exact ih bt bs hbs
    · rw [bestLoop, if_neg hskip, List.filter_cons_of_pos (by simpa using hskip)]
      have hst : (toolScore text t).den ≠ 0 := toolScore_den_ne_zero text t
      have hblt := Frac.blt_iff bs (toolScore text t) hbs hst
      rw [firstMaxF]
      by_cases hcmp : bs.toQ < (toolScore text t).toQ
      · rw [if_pos (hblt.mpr hcmp)]
        rw [ih t (toolScore text t) hst]
        congr 1
        rw [accCombine_some']
        have hge := accCombine_snd_ge t (toolScore text t)
          (firstMaxF text (ts.filter (fun u => trimString u.title ≠ "")))
        rw [if_pos (lt_of_lt_of_le hcmp hge)]
      · rw [if_neg (fun hc => hcmp (hblt.mp hc))]
        rw [ih bt bs hbs]
        congr 1
        rw [accCombine_some']
        cases hfm : firstMaxF text (ts.filter (fun u => trimString u.title ≠ "")) with
        | none =>
          rw [accCombine_none bt bs, accCombine_none t (toolScore text t)]
          show (bt, bs) = if bs.toQ < (toolScore text t).toQ then _ else _
          rw [if_neg hcmp]
        | some p =>
          rw [accCombine_some' bt bs p, accCombine_some' t (toolScore text t) p]
          by_cases h2 : (toolScore text t).toQ < p.2.toQ
          · rw [if_pos h2]
          · rw [if_neg h2]
            show _ = if bs.toQ < (toolScore text t).toQ then _ else _
            have hs2 : ¬ bs.toQ < p.2.toQ := fun hc => hcmp (lt_of_lt_of_le hc (not_lt.mp h2))
            rw [if_neg hs2, if_neg hcmp]

theorem bestLoop_none_eq (ts : List ToolRow) :
    bestLoop text none ts = firstMaxF text (ts.filter (fun t => trimString t.title ≠ "")) := by
  induction ts with
  | nil => simp [bestLoop, firstMaxF]
  | cons t ts ih =>
    by_cases hskip : trimString t.title = ""
    · rw [bestLoop, if_pos hskip, List.filter_cons_of_neg (by simpa using hskip)]
      exact ih
    · rw [bestLoop, if_neg hskip, List.filter_cons_of_pos (by simpa using hskip)]
      rw [bestLoop_some_eq text ts t (toolScore text t) (toolScore_den_ne_zero text t)]
      rw [firstMaxF]

end MatcherProofFacts

theorem matchToolByIntent_floor_counterexample :
    matchToolByIntent "standup" [cexToolC4] = some cexToolC4 ∧
    toolScore "standup" cexToolC4 = ⟨1, 1⟩ ∧
    toolScoreQ "standup" cexToolC4 < 2 := by
  refine ⟨rfl, by decide, ?_⟩
  have h : toolScore "standup" cexToolC4 = ⟨1, 1⟩ := by decide
  rw [toolScoreQ, h]
  norm_num [Frac.toQ]

/-- Claim C4 (amended): with the floor corrected from 2.0 to 1.0, the
matcher (over tools with a nonempty trimmed title) returns none when the
top aggregate score is below 1.0, and otherwise the tool with the strictly
highest aggregate score, ties kept by the first encountered. -/

theorem matchToolByIntent_eq_spec (text : String) (tools : List ToolRow) :
    matchToolByIntent text tools = matchSpecC4 text tools := by
  unfold matchToolByIntent matchSpecC4
  rw [bestLoop_none_eq]
  cases hfm : firstMaxF text (tools.filter (fun t => trimString t.title ≠ "")) with
  | none =>
    have : tools.filter (fun t => trimString t.title ≠ "") = [] :=
      (firstMaxF_eq_none_iff text _).mp hfm
    rw [this]
    rfl
  | some p =>
    obtain ⟨t, s⟩ := p
    obtain ⟨hs, hmax, hfind⟩ := firstMaxF_sound text _ t s hfm
    dsimp only
    rw [hmax]
    have hden : s.den ≠ 0 := hs ▸ toolScore_den_ne_zero text t
    have hone : (Frac.ofNat 1).toQ = 1 := by norm_num [Frac.toQ, Frac.ofNat]
    have hblt := Frac.blt_iff s (Frac.ofNat 1) hden (by simp [Frac.ofNat])
    rw [hone] at hblt
    by_cases h1 : s.toQ < 1
    · rw [if_pos (hblt.mpr h1)]
      dsimp only
      rw [if_pos h1]
    · rw [if_neg (fun hc => h1 (hblt.mp hc))]
      dsimp only
      rw [if_neg h1]
      exact hfind.symm

theorem digitChar_isDigit (n : Nat) (h : n < 10) : isDigitCh (digitChar n) = true := by
  interval_cases n <;> decide

theorem natCharsAux_digits (fuel n : Nat) : ∀ c ∈ natCharsAux fuel n, isDigitCh c = true := by
  induction fuel generalizing n with
  | zero => intro c hc; simp [natCharsAux] at hc
  | succ fuel ih =>
    intro c hc
    rw [natCharsAux] at hc
    split at hc
    · next h =>
      simp only [List.mem_singleton] at hc
      subst hc
      exact digitChar_isDigit n h
    · next h =>
      rw [List.mem_append] at hc
      cases hc with
      | inl hc => exact ih (n / 10) c hc
      | inr hc =>
        simp only [List.mem_singleton] at hc
        subst hc
        exact digitChar_isDigit (n % 10) (Nat.mod_lt n (by norm_num))

theorem natChars_digits (n : Nat) : ∀ c ∈ natChars n, isDigitCh c = true :=
  natCharsAux_digits (n + 1) n

theorem natCharsAux_ne_nil (fuel n : Nat) (h : 0 < fuel) : natCharsAux fuel n ≠ [] := by
  cases fuel with
  | zero => omega
  | succ fuel =>
    rw [natCharsAux]
    split
    · simp
    · simp

theorem natChars_ne_nil (n : Nat) : natChars n ≠ [] :=
  natCharsAux_ne_nil (n + 1) n (Nat.succ_pos n)

theorem takeWhile_append_of_all (p : Char → Bool) (a b : List Char)
    (ha : ∀ c ∈ a, p c = true) (hb : ∀ c, b.head? = some c → p c = false) :
    (a ++ b).takeWhile p = a ∧ (a ++ b).dropWhile p = b := by
  induction a with
  | nil =>
    simp only [List.nil_append]
    cases b with
    | nil => simp [List.takeWhile, List.dropWhile]
    | cons c cs =>
      have := hb c rfl
      simp [List.takeWhile, List.dropWhile, this]
  | cons x a ih =>
    have hx : p x = true := ha x (by simp)
    have ih' := ih (fun c hc => ha c (by simp [hc]))
    simp [List.takeWhile, List.dropWhile, hx, ih'.1, ih'.2]

theorem all_takeWhile (p : Char → Bool) (l : List Char) : ∀ c ∈ l.takeWhile p, p c = true := by
  induction l with
  | nil => simp [List.takeWhile]
  | cons x l ih =>
    intro c hc
    rw [List.takeWhile] at hc
    split at hc
    · next h =>
      rcases List.mem_cons.mp hc with rfl | hc'
      · exact h
      · exact ih c hc'
    · simp at hc

theorem head_dropWhile (p : Char → Bool) (l : List Char) :
    ∀ c, (l.dropWhile p).head? = some c → p c = false := by
  induction l with
  | nil => intro c hc; simp [List.dropWhile] at hc
  | cons x l ih =>
    intro c hc
    rw [List.dropWhile] at hc
    split at hc
    · exact ih c hc
    · next h =>
      simp only [List.head?_cons, Option.some.injEq] at hc
      subst hc
      simpa using h

/-- Everything `parseNumLine` guarantees about its output pieces. -/

theorem parseNumLine_inv (l : List Char) (pre digits : List Char) (d : Char)
    (sp tail : List Char) (h : parseNumLine l = some (pre, digits, d, sp, tail)) :
    l = pre ++ digits ++ d :: (sp ++ tail) ∧
    (∀ c ∈ pre, isJsWs c = true) ∧
    (∀ c ∈ digits, isDigitCh c = true) ∧ digits ≠ [] ∧
    (d = '.' ∨ d = ')') ∧
    (∀ c ∈ sp, isJsWs c = true) ∧ sp ≠ [] ∧
    (∀ c, tail.head? = some c → isJsWs c = false) ∧
    tail.any isTermCh = false := by
  unfold parseNumLine at h
  dsimp only at h
  split at h
  · exact absurd h (by simp)
  · next hdig =>
    split at h
    · exact absurd h (by simp)
    · next d' r3 heq =>
      split at h
      · next hd =>
        split at h
        · exact absurd h (by simp)
        · next hsp =>
          split at h
          · exact absurd h (by simp)
          · next hterm =>
            simp only [Option.some.injEq, Prod.mk.injEq] at h
            obtain ⟨h1, h2, h3, h4, h5⟩ := h
            subst h1; subst h2; subst h3; subst h4; subst h5
            have hjoin1 : l.takeWhile isJsWs ++ l.dropWhile isJsWs = l :=
              List.takeWhile_append_dropWhile isJsWs l
            have hjoin2 : (l.dropWhile isJsWs).takeWhile isDigitCh ++
                (l.dropWhile isJsWs).dropWhile isDigitCh = l.dropWhile isJsWs :=
              List.takeWhile_append_dropWhile isDigitCh (l.dropWhile isJsWs)
            have hjoin3 : r3.takeWhile isJsWs ++ r3.dropWhile isJsWs = r3 :=
              List.takeWhile_append_dropWhile isJsWs r3
            refine ⟨?_, all_takeWhile _ _, all_takeWhile _ _, by simpa using hdig,
              by simpa using hd, all_takeWhile _ _, by simpa using hsp,
              head_dropWhile _ _, by simpa using hterm⟩
            rw [hjoin3, ← heq, List.append_assoc, hjoin2, hjoin1]
      · exact absurd h (by simp)

theorem digit_not_ws (c : Char) (h : isDigitCh c = true) : isJsWs c = false := by
  refine Bool.eq_false_iff.mpr (fun hw => ?_)
  simp only [isJsWs, Bool.or_eq_true, decide_eq_true_eq] at hw
  simp only [isDigitCh, Bool.and_eq_true, decide_eq_true_eq] at h
  obtain ⟨h1, h2⟩ := h
  rcases hw with ((((((hc | hc) | hc) | hc) | hc) | hc) | hc) <;>
    (subst hc; revert h1 h2; decide)

theorem delim_not_digit (d : Char) (h : d = '.' ∨ d = ')') : isDigitCh d = false := by
  rcases h with rfl | rfl <;> decide

theorem delim_not_ws (d : Char) (h : d = '.' ∨ d = ')') : isJsWs d = false := by
  rcases h with rfl | rfl <;> decide

/-- Re-parsing a rendered numbered line recovers its pieces. -/

theorem parseNumLine_render (l pre digits : List Char) (d : Char) (sp tail : List Char)
    (n : Nat) (h : parseNumLine l = some (pre, digits, d, sp, tail)) :
    parseNumLine (renderNumLine n pre d sp tail) = some (pre, natChars n, d, sp, tail) := by
  obtain ⟨_, hpre, _, _, hd, hsp, hspne, htail, hterm⟩ := parseNumLine_inv l pre digits d sp tail h
  have hnd : ∀ c, (natChars n ++ d :: (sp ++ tail)).head? = some c → isJsWs c = false := by
    intro c hc
    cases hnc : natChars n with
    | nil => exact absurd hnc (natChars_ne_nil n)
    | cons x xs =>
      rw [hnc] at hc
      simp only [List.cons_append, List.head?_cons, Option.some.injEq] at hc
      subst hc
      exact digit_not_ws _ (natChars_digits n _ (by rw [hnc]; exact List.mem_cons_self _ _))
  have h1 := takeWhile_append_of_all isJsWs pre (natChars n ++ d :: (sp ++ tail)) hpre hnd
  have hd' : ∀ c, (d :: (sp ++ tail)).head? = some c → isDigitCh c = false := by
    intro c hc
    simp only [List.head?_cons, Option.some.injEq] at hc
    subst hc
    exact delim_not_digit d hd
  have h2 := takeWhile_append_of_all isDigitCh (natChars n) (d :: (sp ++ tail))
    (natChars_digits n) hd'
  have h3 := takeWhile_append_of_all isJsWs sp tail hsp htail
  rw [parseNumLine, renderNumLine]
  dsimp only
  rw [h1.1, h1.2, h2.1, h2.2]
  rw [if_neg (by simpa using natChars_ne_nil n)]
  dsimp only
  rw [h3.1, h3.2]
  rw [if_pos (by simpa using hd)]
  rw [if_neg (by simpa using hspne)]
  rw [if_neg (by simpa using hterm)]

theorem fence_not_blank (l : List Char) (h : isFenceLine l = true) : isBlankLine l = false := by
  refine Bool.eq_false_iff.mpr (fun hb => ?_)
  rw [isFenceLine] at h
  rw [isBlankLine] at hb
  have : l.dropWhile isJsWs = [] := by
    rw [List.dropWhile_eq_nil_iff]
    intro x hx
    exact List.all_eq_true.mp hb x hx
  rw [this] at h
  simp [List.isPrefixOf] at h

theorem parse_not_blank (l : List Char) (pre digits : List Char) (d : Char) (sp tail : List Char)
    (h : parseNumLine l = some (pre, digits, d, sp, tail)) : isBlankLine l = false := by
  obtain ⟨hl, _, hdig, hne, hd, _, _, _, _⟩ := parseNumLine_inv l pre digits d sp tail h
  refine Bool.eq_false_iff.mpr (fun hb => ?_)
  rw [isBlankLine, List.all_eq_true] at hb
  have hdm : d ∈ l := by rw [hl]; simp
  have := hb d hdm
  rw [delim_not_ws d hd] at this
  exact Bool.false_ne_true this

theorem render_not_fence (pre digits : List Char) (d : Char) (sp tail : List Char) (n : Nat)
    (l : List Char) (h : parseNumLine l = some (pre, digits, d, sp, tail)) :
    isFenceLine (renderNumLine n pre d sp tail) = false := by
  obtain ⟨_, hpre, _, _, hd, _, _, htail, _⟩ := parseNumLine_inv l pre digits d sp tail h
  have hnd : ∀ c, (natChars n ++ d :: (sp ++ tail)).head? = some c → isJsWs c = false := by
    intro c hc
    cases hnc : natChars n with
    | nil => exact absurd hnc (natChars_ne_nil n)
    | cons x xs =>
      rw [hnc] at hc
      simp only [List.cons_append, List.head?_cons, Option.some.injEq] at hc
      subst hc
      exact digit_not_ws _ (natChars_digits n _ (by rw [hnc]; exact List.mem_cons_self _ _))
  have h1 := takeWhile_append_of_all isJsWs pre (natChars n ++ d :: (sp ++ tail)) hpre hnd
  rw [isFenceLine, renderNumLine, h1.2]
  cases hnc : natChars n with
  | nil => exact absurd hnc (natChars_ne_nil n)
  | cons x xs =>
    have hx : isDigitCh x = true := natChars_digits n x (by simp [hnc])
    simp only [List.cons_append, List.isPrefixOf]
    have : ¬ ('`' == x) = true := by
      intro hbeq
      have : '`' = x := by simpa using hbeq
      subst this
      revert hx
      decide
    simp [this]

theorem nextNumbered_cons_of_blank (l : List Char) (X : List (List Char))
    (h : isBlankLine l = true) : nextNumbered (l :: X) = nextNumbered X := by
  rw [nextNumbered, nextNumbered, List.dropWhile_cons, if_pos h]

theorem nextNumbered_cons_of_not_blank (l : List Char) (X : List (List Char))
    (h : isBlankLine l = false) : nextNumbered (l :: X) = (parseNumLine l).isSome := by
  rw [nextNumbered, List.dropWhile_cons, if_neg (by simp [h])]

theorem nextNumbered_renumGo (L : List (List Char)) :
    ∀ b n, nextNumbered (renumGo b n L) = nextNumbered L := by
  induction L with
  | nil => intro b n; rfl
  | cons l rest ih =>
    intro b n
    rw [renumGo]
    by_cases hf : isFenceLine l = true
    · rw [if_pos hf]
      rw [nextNumbered_cons_of_not_blank l _ (fence_not_blank l hf),
        nextNumbered_cons_of_not_blank l _ (fence_not_blank l hf)]
    · rw [if_neg hf]
      cases hp : parseNumLine l with
      | some q =>
        obtain ⟨pre, digits, d, sp, tail⟩ := q
        dsimp only
        have hrb : isBlankLine (renderNumLine (if b then n + 1 else 1) pre d sp tail) = false :=
          parse_not_blank _ _ _ _ _ _
            (parseNumLine_render l pre digits d sp tail (if b then n + 1 else 1) hp)
        rw [nextNumbered_cons_of_not_blank _ _ hrb,
          nextNumbered_cons_of_not_blank l _ (parse_not_blank l pre digits d sp tail hp)]
        rw [parseNumLine_render l pre digits d sp tail (if b then n + 1 else 1) hp, hp]
        rfl
      | none =>
        dsimp only
        by_cases hb : isBlankLine l = true
        · split
          · rw [nextNumbered_cons_of_blank l _ hb, nextNumbered_cons_of_blank l _ hb, ih]
          · rw [nextNumbered_cons_of_blank l _ hb, nextNumbered_cons_of_blank l _ hb, ih]
        · have hb' : isBlankLine l = false := Bool.eq_false_iff.mpr hb
          split
          · rw [nextNumbered_cons_of_not_blank l _ hb',
              nextNumbered_cons_of_not_blank l _ hb']
          · rw [nextNumbered_cons_of_not_blank l _ hb',
              nextNumbered_cons_of_not_blank l _ hb']

theorem renumGo_idem (L : List (List Char)) :
    ∀ b n, renumGo b n (renumGo b n L) = renumGo b n L := by
  induction L with
  | nil => intro b n; rfl
  | cons l rest ih =>
    intro b n
    by_cases hf : isFenceLine l = true
    · rw [renumGo, if_pos hf]
      rw [renumGo, if_pos hf, ih]
    · cases hp : parseNumLine l with
      | some q =>
        obtain ⟨pre, digits, d, sp, tail⟩ := q
        rw [renumGo, if_neg hf, hp]
        dsimp only
        have hrender := parseNumLine_render l pre digits d sp tail (if b then n + 1 else 1) hp
        rw [renumGo, if_neg (by simp [render_not_fence pre digits d sp tail _ l hp]), hrender]
        dsimp only
        rw [ih]
      | none =>
        rw [renumGo, if_neg hf, hp]
        dsimp only
        by_cases hc : (b && isBlankLine l && nextNumbered rest) = true
        · rw [if_pos hc]
          rw [renumGo, if_neg hf, hp]
          dsimp only
          rw [nextNumbered_renumGo rest b n]
          rw [if_pos hc, ih]
        · rw [if_neg hc]
          rw [renumGo, if_neg hf, hp]
          dsimp only
          rw [nextNumbered_renumGo rest false 0]
          rw [if_neg hc, ih]

theorem splitCRLF_ne_nil (cs : List Char) : splitCRLF cs ≠ [] := by
  match cs with
  | [] => simp [splitCRLF]
  | [c] =>
    rw [splitCRLF]
    split <;> simp
  | c :: d :: rest =>
    rw [splitCRLF]
    split
    · simp
    · split
      · simp
      · cases splitCRLF (d :: rest) with
        | nil => simp [consHead]
        | cons h t => simp [consHead]

theorem splitCRLF_of_lineOK (cs : List Char) (h : lineOK cs) : splitCRLF cs = [cs] := by
  induction cs with
  | nil => rfl
  | cons c cs' ih =>
    have hc := h c (by simp)
    cases cs' with
    | nil =>
      rw [splitCRLF]
      rw [if_neg (by simp [hc.1])]
    | cons d rest =>
      rw [splitCRLF]
      rw [if_neg (by simp [hc.1]), if_neg (by simp [hc.2])]
      rw [ih (fun x hx => h x (by simp [hx]))]
      rfl

theorem splitCRLF_append_newline (l : List Char) (rest : List Char) (h : lineOK l) :
    splitCRLF (l ++ '\n' :: rest) = l :: splitCRLF rest := by
  induction l with
  | nil =>
    cases rest with
    | nil => rfl
    | cons r rs =>
      rw [List.nil_append, splitCRLF]
      rw [if_pos rfl]
  | cons c l' ih =>
    have hc := h c (by simp)
    have hne : l' ++ '\n' :: rest ≠ [] := by simp
    rw [List.cons_append]
    cases hl : l' ++ '\n' :: rest with
    | nil => exact absurd hl hne
    | cons y ys =>
      rw [splitCRLF]
      have hy : ¬ (c = '\r' && y = '\n') = true := by
        simp only [Bool.and_eq_true, decide_eq_true_eq]
        rintro ⟨rfl, _⟩
        exact hc.2 rfl
      rw [if_neg (by simp [hc.1]), if_neg hy, ← hl]
      rw [ih (fun x hx => h x (by simp [hx]))]
      rfl

theorem splitCRLF_joinNl (L : List (List Char)) (hne : L ≠ [])
    (h : ∀ l ∈ L, lineOK l) : splitCRLF (joinNl L) = L := by
  induction L with
  | nil => exact absurd rfl hne
  | cons l L' ih =>
    cases L' with
    | nil =>
      rw [joinNl, List.intercalate]
      simp only [List.intersperse]
      rw [List.flatten, List.flatten]
      simp only [List.append_nil]
      exact splitCRLF_of_lineOK l (h l (by simp))
    | cons m M =>
      have hjoin : joinNl (l :: m :: M) = l ++ '\n' :: joinNl (m :: M) := by
        rw [joinNl, joinNl, List.intercalate, List.intercalate]
        simp [List.intersperse]
      rw [hjoin]
      rw [splitCRLF_append_newline l _ (h l (by simp))]
      rw [ih (by simp) (fun x hx => h x (by simp [hx]))]

theorem splitCRLF_lineOK (cs : List Char) (h : ∀ c ∈ cs, c ≠ '\r') :
    ∀ l ∈ splitCRLF cs, lineOK l := by
  induction cs with
  | nil =>
    intro l hl
    simp only [splitCRLF, List.mem_singleton] at hl
    subst hl
    intro c hc
    simp at hc
  | cons c cs' ih =>
    have hcr : c ≠ '\r' := h c (by simp)
    cases cs' with
    | nil =>
      intro l hl
      rw [splitCRLF] at hl
      split at hl
      · simp only [List.mem_cons, List.mem_singleton, List.not_mem_nil, or_false] at hl
        rcases hl with rfl | rfl <;> (intro x hx; simp at hx)
      · next hcn =>
        simp only [List.mem_singleton] at hl
        subst hl
        intro x hx
        simp only [List.mem_singleton] at hx
        subst hx
        exact ⟨hcn, hcr⟩
    | cons d rest =>
      intro l hl
      rw [splitCRLF] at hl
      split at hl
      · next hcn =>
        rcases List.mem_cons.mp hl with rfl | hl'
        · intro x hx; simp at hx
        · exact ih (fun x hx => h x (by simp [hx])) l hl'
      · split at hl
        · next hrn =>
          simp only [Bool.and_eq_true, decide_eq_true_eq] at hrn
          exact absurd hrn.1 hcr
        · next hcn _ =>
          cases hsp : splitCRLF (d :: rest) with
          | nil => exact absurd hsp (splitCRLF_ne_nil _)
          | cons hd tl =>
            rw [hsp, consHead] at hl
            rcases List.mem_cons.mp hl with rfl | hl'
            · intro x hx
              rcases List.mem_cons.mp hx with rfl | hx'
              · exact ⟨by simpa using hcn, hcr⟩
              · exact ih (fun y hy => h y (by simp [hy])) hd (by rw [hsp]; simp) x hx'
            · exact ih (fun y hy => h y (by simp [hy])) l (by rw [hsp]; simp [hl'])

theorem renumGo_ne_nil (b : Bool) (n : Nat) (L : List (List Char)) (h : L ≠ []) :
    renumGo b n L ≠ [] := by
  cases L with
  | nil => exact absurd rfl h
  | cons l rest =>
    rw [renumGo]
    split
    · simp
    · cases parseNumLine l with
      | some q => obtain ⟨pre, digits, d, sp, tail⟩ := q; simp
      | none =>
        dsimp only
        split <;> simp

theorem digit_lineOK_char (c : Char) (h : isDigitCh c = true) : c ≠ '\n' ∧ c ≠ '\r' := by
  constructor <;> (rintro rfl; revert h; decide)

theorem renumGo_lineOK (L : List (List Char)) :
    ∀ b n, (∀ l ∈ L, lineOK l) → ∀ l' ∈ renumGo b n L, lineOK l' := by
  induction L with
  | nil => intro b n _ l' hl'; simp [renumGo] at hl'
  | cons l rest ih =>
    intro b n hOK l' hl'
    have hlOK : lineOK l := hOK l (by simp)
    have hrest : ∀ x ∈ rest, lineOK x := fun x hx => hOK x (by simp [hx])
    rw [renumGo] at hl'
    split at hl'
    · rcases List.mem_cons.mp hl' with rfl | hl''
      · exact hlOK
      · exact ih false 0 hrest l' hl''
    · cases hp : parseNumLine l with
      | some q =>
        obtain ⟨pre, digits, d, sp, tail⟩ := q
        rw [hp] at hl'
        dsimp only at hl'
        rcases List.mem_cons.mp hl' with rfl | hl''
        · obtain ⟨hl, _, _, _, hd, _, _, _, _⟩ := parseNumLine_inv l pre digits d sp tail hp
          intro x hx
          rw [renderNumLine] at hx
          simp only [List.mem_append, List.mem_cons] at hx
          rcases hx with hx | hx | rfl | hx
          · exact hlOK x (by rw [hl]; simp [hx])
          · exact digit_lineOK_char x (natChars_digits _ x hx)
          · rcases hd with rfl | rfl <;> (constructor <;> decide)
          · rcases hx with hx' | hx'
            · exact hlOK x (by rw [hl]; simp [hx'])
            · exact hlOK x (by rw [hl]; simp [hx'])
        · exact ih true _ hrest l' hl''
      | none =>
        rw [hp] at hl'
        dsimp only at hl'
        split at hl'
        · rcases List.mem_cons.mp hl' with rfl | hl''
          · exact hlOK
          · exact ih b n hrest l' hl''
        · rcases List.mem_cons.mp hl' with rfl | hl''
          · exact hlOK
          · exact ih false 0 hrest l' hl''

/-- Claim C8 (amended): the ordered-list renumbering step is idempotent on
every input containing no carriage-return character (splitting on `/\r?\n/`
but joining with `"\n"` makes a first pass normalise `\r\n`, so inputs with
stray `\r` characters need one extra pass). -/

theorem renumberOrderedLists_idem (x : String) (hx : ∀ c ∈ x.data, c ≠ '\r') :
    renumberOrderedLists (renumberOrderedLists x) = renumberOrderedLists x := by
  by_cases h0 : x = ""
  · subst h0; rfl
  · have hy : renumberOrderedLists x =
        ⟨joinNl (renumGo false 0 (splitCRLF x.data))⟩ := by
      rw [renumberOrderedLists, if_neg h0]
    have hL1OK : ∀ l ∈ renumGo false 0 (splitCRLF x.data), lineOK l :=
      renumGo_lineOK _ false 0 (splitCRLF_lineOK x.data hx)
    have hL1ne : renumGo false 0 (splitCRLF x.data) ≠ [] :=
      renumGo_ne_nil _ _ _ (splitCRLF_ne_nil _)
    rw [hy]
    by_cases hy0 : (⟨joinNl (renumGo false 0 (splitCRLF x.data))⟩ : String) = ""
    · rw [hy0]; rfl
    · rw [renumberOrderedLists, if_neg hy0]
      have hdata : (String.mk (joinNl (renumGo false 0 (splitCRLF x.data)))).data =
          joinNl (renumGo false 0 (splitCRLF x.data)) := rfl
      rw [hdata, splitCRLF_joinNl _ hL1ne hL1OK, renumGo_idem]

/-- Witness for C8 at a concrete carriage-return-free input. -/

theorem renumberOrderedLists_idem_witness :
    (∀ c ∈ ("3. a\n7) b\n\nplain\n5. c" : String).data, c ≠ '\r') ∧
    renumberOrderedLists (renumberOrderedLists "3. a\n7) b\n\nplain\n5. c") =
      renumberOrderedLists "3. a\n7) b\n\nplain\n5. c" :=
  ⟨by decide, renumberOrderedLists_idem _ (by decide)⟩

/-- Claim C8 counterexample: on `"abc\r\r\nxyz"` the first pass yields
`"abc\r\nxyz"` and the second collapses the now-adjacent `\r\n`, so the
step is not idempotent for every input text. -/

theorem renumberOrderedLists_idem_counterexample :
    renumberOrderedLists (renumberOrderedLists "abc\r\r\nxyz") ≠
      renumberOrderedLists "abc\r\r\nxyz" := by decide

/-- Claim C9: inside a fenced code block the renumberer still rewrites
numbered lines — the fence marker only resets the counter — contradicting
the function's own documentation ("Skips fenced code blocks"): the line
`2. two` inside the fence is rewritten to `1. two`. -/

theorem renumber_rewrites_inside_fence :
    renumberOrderedLists "```\n2. two\n```" = "```\n1. two\n```" ∧
    renumberOrderedLists "```\n2. two\n```" ≠ "```\n2. two\n```" := by
  constructor <;> decide

/-- Claim C6 counterexample: with no fresh cache and a query error,
`getToolRegistry` throws (`if (error) throw error`) instead of returning an
empty list, so "the tool registry read operation never throws" is false as
stated for `getToolRegistry`. -/

theorem getToolRegistry_throws_counterexample :
    getToolRegistry none ⟨none, some "db unreachable"⟩ =
      Except.error "db unreachable" := rfl

/-- Claim C6 (amended): `fetchToolRegistryFlexible` never throws — it is a
total function into lists — and on an unavailable client or any read
failure (query error or missing data) it returns the empty list;
`getToolRegistry` by contrast propagates a query error to its caller. -/

theorem fetchToolRegistryFlexible_degrades (sb : Option Unit) (res : FlexQueryResult)
    (h : sb = none ∨ res.error.isSome ∨ res.data.isNone) :
    fetchToolRegistryFlexible sb res = [] := by
  rcases h with rfl | herr | hdata
  · rfl
  · cases sb with
    | none => rfl
    | some u =>
      rw [fetchToolRegistryFlexible]
      cases he : res.error with
      | none => rw [he] at herr; simp at herr
      | some e => rfl
  · cases sb with
    | none => rfl
    | some u =>
      rw [fetchToolRegistryFlexible]
      cases he : res.error with
      | some e => rfl
      | none =>
        cases hd : res.data with
        | none => rfl
        | some rows => rw [hd] at hdata; simp at hdata

/-- Witness for C6 at a concrete failed read. -/

theorem fetchToolRegistryFlexible_degrades_witness :
    ((some () : Option Unit) = none ∨ (some "boom" : Option String).isSome ∨
        (some ([] : List FlexRow) : Option (List FlexRow)).isNone) ∧
    fetchToolRegistryFlexible (some ()) ⟨some [], some "boom"⟩ = [] :=
  ⟨Or.inr (Or.inl rfl), fetchToolRegistryFlexible_degrades (some ()) ⟨some [], some "boom"⟩
    (Or.inr (Or.inl rfl))⟩

theorem finalTextFor_ne_empty (reply : NormReply) : finalTextFor reply ≠ "" := by
  rw [finalTextFor.eq_def]
  dsimp only
  split
  · decide
  · next h =>
    intro hc
    rw [hc] at h
    simp at h

theorem normalizeReply_message_ne_empty (r : RawReply) : msgOf (normalizeReply r) ≠ "" := by
  rw [normalizeReply]
  split
  · dsimp only [msgOf]
    split
    · decide
    · assumption
  · split
    · dsimp only [msgOf]
      split
      · decide
      · assumption
    · split
      · dsimp only [msgOf]
        split
        · decide
        · assumption
      · split <;>
        · dsimp only [msgOf]
          split
          · decide
          · assumption

/-- Claim C7: a generation reply whose message/text field is empty (for
example mode qa with message "") normalizes to a fixed non-empty fallback
message, and the final text returned by the processChat switch (with its
"Okay." guard) is never the empty string. -/

theorem empty_reply_safe (r : RawReply)
    (_h : trimString ((r.message <|> r.text).getD "") = "") :
    msgOf (normalizeReply r) ≠ "" ∧ finalTextFor (normalizeReply r) ≠ "" :=
  ⟨normalizeReply_message_ne_empty r, finalTextFor_ne_empty (normalizeReply r)⟩

/-- Witness for C7: mode qa with message "" yields "Got it.". -/

theorem empty_reply_safe_witness :
    trimString ((({ mode := some "qa", message := some "" } : RawReply).message <|>
        ({ mode := some "qa", message := some "" } : RawReply).text).getD "") = "" ∧
    msgOf (normalizeReply { mode := some "qa", message := some "" }) ≠ "" ∧
    finalTextFor (normalizeReply { mode := some "qa", message := some "" }) ≠ "" ∧
    normalizeReply { mode := some "qa", message := some "" } = NormReply.qa "Got it." :=
  ⟨by decide, (empty_reply_safe _ (by decide)).1, (empty_reply_safe _ (by decide)).2, by decide⟩

/-- Claim C3: with a proposed tool in session state whose slug resolves in
the registry and a user text classified accept, the turn short-circuits:
route = tools, the body is the rendered plan plus the canonical Try line,
and the result is identical for any two router/generator oracles — neither
is invoked. -/

theorem accept_short_circuit (userText : String) (mem : MemRow) (messages : List Msg)
    (cookieSlug : Option String) (tools : List ToolRow) (p : Proposed) (t : ToolRow)
    (hp : mem.proposed = some p)
    (hacc : classifyFollowUp userText = FollowKind.accept)
    (ht : tools.find? (fun u => u.slug = p.slug) = some t)
    (router₁ router₂ : String → List Msg → Route) (gen₁ gen₂ : Route → String) :
    turnWithFollowUp router₁ gen₁ userText mem messages cookieSlug tools =
      turnWithFollowUp router₂ gen₂ userText mem messages cookieSlug tools ∧
    turnWithFollowUp router₁ gen₁ userText mem messages cookieSlug tools =
      ("tools", renumberOrderedLists
        (renderPlanForTool t (p.params.getD {}) ++ "\n\n" ++ formatTryLine t.title)) := by
  have hstage : followUpStage userText mem messages cookieSlug tools =
      FollowOutcome.short "tools" true (some t.slug)
        (renumberOrderedLists
          (renderPlanForTool t (p.params.getD {}) ++ "\n\n" ++ formatTryLine t.title)) := by
    rw [followUpStage]
    rw [hp, hacc]
    rw [Option.some_orElse]
    dsimp only
    rw [ht, Option.some_orElse]
  rw [turnWithFollowUp, turnWithFollowUp, hstage]
  exact ⟨rfl, rfl⟩

/-- Witness for C3: input "yes" with proposed slug "weekly-report", under
two different adversarial oracle pairs. -/

theorem accept_short_circuit_witness :
    ({ last_reco_slug := none, proposed := some { slug := "weekly-report" } } : MemRow).proposed
        = some { slug := "weekly-report" } ∧
    classifyFollowUp "yes" = FollowKind.accept ∧
    [wrTool].find? (fun u => u.slug = ("weekly-report" : String)) = some wrTool ∧
    turnWithFollowUp (fun _ _ => Route.coach) (fun _ => "GENERATED")
        "yes" { last_reco_slug := none, proposed := some { slug := "weekly-report" } } []
        none [wrTool] =
      ("tools", renumberOrderedLists
        (renderPlanForTool wrTool {} ++ "\n\n" ++ formatTryLine wrTool.title)) := by
  refine ⟨rfl, by decide, rfl, ?_⟩
  exact (accept_short_circuit "yes" _ [] none [wrTool] { slug := "weekly-report" } wrTool rfl
    (by decide) rfl (fun _ _ => Route.coach) (fun _ _ => Route.qa) (fun _ => "GENERATED")
    (fun _ => "OTHER")).2

/-- Claim C10: when the intent matcher picks a tool, the enforcement
stage's final text is the deterministic plan + Try line and is identical
regardless of the generation backend's output, which is discarded
entirely. -/

theorem enforcement_discards_generation (userText : String) (messages : List Msg)
    (tools : List ToolDocT) (t : ToolDocT) (g₁ g₂ : String)
    (hm : matchToolByIntentV1 userText tools = some t) :
    enforceStage userText messages tools g₁ = enforceStage userText messages tools g₂ ∧
    (enforceStage userText messages tools g₁).1 =
      trimString (renderPlanForToolC t ++ "\n\n" ++ formatTryLineV1 t) := by
  have h : ∀ g, enforceStage userText messages tools g =
      (trimString (renderPlanForToolC t ++ "\n\n" ++ formatTryLineV1 t), some t.slug) := by
    intro g
    rw [enforceStage, hm]
    rfl
  rw [h g₁, h g₂]
  exact ⟨rfl, rfl⟩

/-- Witness for C10: a tool whose pattern matches; two very different
generator outputs produce the same final text. -/

theorem enforcement_discards_generation_witness :
    matchToolByIntentV1 "status updates" [wrToolT] = some wrToolT ∧
    enforceStage "status updates" [] [wrToolT] "Use Asana! Try: Asana" =
      enforceStage "status updates" [] [wrToolT] "" ∧
    (enforceStage "status updates" [] [wrToolT] "Use Asana! Try: Asana").1 =
      trimString (renderPlanForToolC wrToolT ++ "\n\n" ++ formatTryLineV1 wrToolT) := by
  refine ⟨rfl, ?_, ?_⟩
  · exact (enforcement_discards_generation "status updates" [] [wrToolT] wrToolT
      "Use Asana! Try: Asana" "" rfl).1
  · exact (enforcement_discards_generation "status updates" [] [wrToolT] wrToolT
      "Use Asana! Try: Asana" "" rfl).2

/-! ## Whitespace character facts and engine padding lemmas -/

theorem jsWs_cases (c : Char) (h : isJsWs c = true) :
    c = ' ' ∨ c = '\t' ∨ c = '\n' ∨ c = '\r' ∨ c = '\x0b' ∨ c = '\x0c' ∨
      c = ' ' := by
  simp only [isJsWs, Bool.or_eq_true, decide_eq_true_eq] at h
  tauto

theorem ws_not_word (c : Char) (h : isJsWs c = true) : isWordChar c = false := by
  rcases jsWs_cases c h with h | h | h | h | h | h | h <;> subst h <;> decide

theorem ws_not_upper (c : Char) (h : isJsWs c = true) : isUpperCh c = false := by
  rcases jsWs_cases c h with h | h | h | h | h | h | h <;> subst h <;> decide

theorem ws_not_domCh (c : Char) (h : isJsWs c = true) : domCh c = false := by
  rcases jsWs_cases c h with h | h | h | h | h | h | h <;> subst h <;> decide

theorem ws_not_alnumLow (c : Char) (h : isJsWs c = true) : isAlnumLow c = false := by
  rcases jsWs_cases c h with h | h | h | h | h | h | h <;> subst h <;> decide

theorem ws_ne_dot (c : Char) (h : isJsWs c = true) : (c = '.') = False := by
  rcases jsWs_cases c h with h | h | h | h | h | h | h <;> subst h <;> decide

theorem ws_lower_ws (c : Char) (h : isJsWs c = true) : isJsWs (lowerCh c) = true := by
  rcases jsWs_cases c h with h | h | h | h | h | h | h <;> subst h <;> decide

theorem wsList_wordNext (b : List Char) (hb : ∀ c ∈ b, isJsWs c = true) :
    wordNext b = false := by
  cases b with
  | nil => rfl
  | cons c cs =>
    simp only [wordNext]
    exact ws_not_word c (hb c (List.mem_cons_self c cs))

theorem wordNext_append (s b : List Char) (hb : wordNext b = false) :
    wordNext (s ++ b) = wordNext s := by
  cases s with
  | nil => simpa using hb
  | cons c cs => rfl

theorem starSplits_pad (p : Char → Bool) (b : List Char) :
    ∀ (w : Bool) (s : List Char) (w' : Bool) (r : List Char),
      (w', r) ∈ starSplits p w s → (w', r ++ b) ∈ starSplits p w (s ++ b) := by
  intro w s
  induction s generalizing w with
  | nil =>
    intro w' r h
    simp only [starSplits, List.mem_singleton, Prod.mk.injEq] at h
    obtain ⟨hw, hr⟩ := h
    subst hw; subst hr
    cases b with
    | nil => simp [starSplits]
    | cons c cs => simp [starSplits]
  | cons c cs ih =>
    intro w' r h
    simp only [starSplits, List.mem_cons, Prod.mk.injEq] at h
    rcases h with ⟨hw, hr⟩ | h
    · subst hw; subst hr
      simp [starSplits]
    · cases hp : p c with
      | false => rw [hp] at h; simp at h
      | true =>
        rw [hp] at h
        simp only [List.cons_append, starSplits, hp, if_true, List.mem_cons]
        simp at h
        exact Or.inr (ih (isWordChar c) w' r h)

theorem matchP_pad (b : List Char) (hb : wordNext b = false) :
    ∀ (pat : Pat) (w : Bool) (s : List Char) (w' : Bool) (r : List Char),
      (w', r) ∈ matchP pat w s → (w', r ++ b) ∈ matchP pat w (s ++ b) := by
  intro pat
  induction pat with
  | eps =>
    intro w s w' r h
    simp only [matchP, List.mem_singleton, Prod.mk.injEq] at h
    obtain ⟨hw, hr⟩ := h
    subst hw; subst hr
    simp [matchP]
  | cls p =>
    intro w s w' r h
    cases s with
    | nil => simp [matchP] at h
    | cons c cs =>
      simp only [matchP] at h
      cases hp : p c with
      | false => rw [hp] at h; simp at h
      | true =>
        rw [hp] at h
        simp at h
        obtain ⟨hw, hr⟩ := h
        subst hw; subst hr
        simp [matchP, hp]
  | seq p q ihp ihq =>
    intro w s w' r h
    simp only [matchP, List.mem_flatMap] at h ⊢
    obtain ⟨⟨w1, r1⟩, h1, h2⟩ := h
    exact ⟨(w1, r1 ++ b), ihp w s w1 r1 h1, ihq w1 r1 w' r h2⟩
  | alt p q ihp ihq =>
    intro w s w' r h
    simp only [matchP, List.mem_append] at h ⊢
    rcases h with h | h
    · exact Or.inl (ihp w s w' r h)
    · exact Or.inr (ihq w s w' r h)
  | star p =>
    intro w s w' r h
    exact starSplits_pad p b w s w' r h
  | opt p ihp =>
    intro w s w' r h
    simp only [matchP, List.mem_cons, Prod.mk.injEq] at h ⊢
    rcases h with ⟨hw, hr⟩ | h
    · subst hw; subst hr; exact Or.inl ⟨rfl, rfl⟩
    · exact Or.inr (ihp w s w' r h)
  | bnd =>
    intro w s w' r h
    simp only [matchP] at h ⊢
    rw [wordNext_append s b hb]
    by_cases hw : w ≠ wordNext s
    · rw [if_pos hw] at h ⊢
      simp only [List.mem_singleton, Prod.mk.injEq] at h
      obtain ⟨h1, h2⟩ := h
      subst h1; subst h2
      simp
    · rw [if_neg hw] at h
      simp at h

theorem matchesAt_pad (pat : Pat) (b : List Char) (hb : wordNext b = false)
    (w : Bool) (s : List Char) (h : matchesAt pat w s = true) :
    matchesAt pat w (s ++ b) = true := by
  simp only [matchesAt, Bool.not_eq_true', List.isEmpty_eq_false_iff_exists_mem] at h ⊢
  obtain ⟨⟨w', r⟩, hm⟩ := h
  exact ⟨(w', r ++ b), matchP_pad b hb pat w s w' r hm⟩

theorem searchFrom_of_matchesAt (pat : Pat) (w : Bool) (s : List Char)
    (h : matchesAt pat w s = true) : searchFrom pat w s = true := by
  cases s with
  | nil => exact h
  | cons c cs => simp [searchFrom, h]

theorem searchFrom_pad_right (pat : Pat) (b : List Char) (hb : wordNext b = false) :
    ∀ (w : Bool) (s : List Char), searchFrom pat w s = true →
      searchFrom pat w (s ++ b) = true := by
  intro w s
  induction s generalizing w with
  | nil =>
    intro h
    have h2 := matchesAt_pad pat b hb w [] h
    simpa using searchFrom_of_matchesAt pat w b (by simpa using h2)
  | cons c cs ih =>
    intro h
    simp only [searchFrom, Bool.or_eq_true] at h
    simp only [List.cons_append, searchFrom, Bool.or_eq_true]
    rcases h with h | h
    · exact Or.inl (matchesAt_pad pat b hb w (c :: cs) h)
    · exact Or.inr (ih (isWordChar c) h)

theorem searchFrom_pad_left (pat : Pat) :
    ∀ (a : List Char), (∀ c ∈ a, isWordChar c = false) →
      ∀ (s : List Char), searchFrom pat false s = true →
        searchFrom pat false (a ++ s) = true := by
  intro a
  induction a with
  | nil => intro _ s h; exact h
  | cons c a' ih =>
    intro ha s h
    have hc : isWordChar c = false := ha c (List.mem_cons_self c a')
    simp only [List.cons_append, searchFrom, hc, Bool.or_eq_true]
    exact Or.inr (ih (fun d hd => ha d (List.mem_cons_of_mem c hd)) s h)

theorem searchFrom_pad (pat : Pat) (a l b : List Char)
    (ha : ∀ c ∈ a, isJsWs c = true) (hb : ∀ c ∈ b, isJsWs c = true)
    (h : searchFrom pat false l = true) :
    searchFrom pat false (a ++ l ++ b) = true := by
  rw [List.append_assoc]
  exact searchFrom_pad_left pat a (fun c hc => ws_not_word c (ha c hc))
    (l ++ b) (searchFrom_pad_right pat b (wsList_wordNext b hb) false l h)

/-! ## List scaffolding for the sanitizer proofs -/

theorem length_takeWhile_le' (p : Char → Bool) (l : List Char) :
    (l.takeWhile p).length ≤ l.length := by
  induction l with
  | nil => simp
  | cons c cs ih =>
    simp only [List.takeWhile]
    cases p c with
    | false => simp
    | true => simpa using Nat.succ_le_succ ih

theorem takeWhile_append_stop (p : Char → Bool) (x b : List Char)
    (hb : ∀ c ∈ b, p c = false) :
    (x ++ b).takeWhile p = x.takeWhile p ∧ (x ++ b).dropWhile p = x.dropWhile p ++ b := by
  induction x with
  | nil =>
    simp only [List.nil_append, List.takeWhile_nil, List.dropWhile_nil]
    cases b with
    | nil => simp
    | cons c cs =>
      have hc := hb c (List.mem_cons_self c cs)
      simp [List.takeWhile, List.dropWhile, hc]
  | cons c cs ih =>
    simp only [List.cons_append, List.takeWhile, List.dropWhile]
    cases p c with
    | false => simp
    | true =>
      obtain ⟨h1, h2⟩ := ih
      simp [h1, h2]

theorem takeWhile_append_within (p : Char → Bool) (x b : List Char)
    (hx : x.dropWhile p ≠ []) :
    (x ++ b).takeWhile p = x.takeWhile p ∧ (x ++ b).dropWhile p = x.dropWhile p ++ b := by
  induction x with
  | nil => simp at hx
  | cons c cs ih =>
    cases hp : p c with
    | false => simp [List.takeWhile_cons, List.dropWhile_cons, hp]
    | true =>
      have hx' : cs.dropWhile p ≠ [] := by
        simpa [List.dropWhile_cons, hp] using hx
      obtain ⟨h1, h2⟩ := ih hx'
      simp [List.takeWhile_cons, List.dropWhile_cons, hp, h1, h2]

theorem splitNl_ne_nil (s : List Char) : splitNl s ≠ [] := by
  induction s with
  | nil => simp [splitNl]
  | cons c cs ih =>
    simp only [splitNl]
    by_cases h : c = '\n'
    · simp [h]
    · rw [if_neg h]
      cases hs : splitNl cs with
      | nil => exact absurd hs ih
      | cons l ls => simp [consHead]

theorem splitNl_no_newline (s : List Char) :
    ∀ l ∈ splitNl s, ∀ c ∈ l, c ≠ '\n' := by
  induction s with
  | nil => intro l hl; simp [splitNl] at hl; simp [hl]
  | cons c cs ih =>
    intro l hl
    simp only [splitNl] at hl
    by_cases h : c = '\n'
    · rw [if_pos h] at hl
      rcases List.mem_cons.mp hl with h0 | h0
      · simp [h0]
      · exact ih l h0
    · rw [if_neg h] at hl
      cases hs : splitNl cs with
      | nil => exact absurd hs (splitNl_ne_nil cs)
      | cons m ms =>
        rw [hs] at hl
        simp only [consHead, List.mem_cons] at hl
        rcases hl with h0 | h0
        · subst h0
          intro d hd
          rcases List.mem_cons.mp hd with h1 | h1
          · subst h1; exact h
          · exact ih m (by rw [hs]; exact List.mem_cons_self m ms) d h1
        · exact ih l (by rw [hs]; exact List.mem_cons_of_mem m h0)

theorem splitNl_mem_chars (s : List Char) :
    ∀ l ∈ splitNl s, ∀ c ∈ l, c ∈ s := by
  induction s with
  | nil => intro l hl; simp [splitNl] at hl; simp [hl]
  | cons c cs ih =>
    intro l hl
    simp only [splitNl] at hl
    by_cases h : c = '\n'
    · rw [if_pos h] at hl
      rcases List.mem_cons.mp hl with h0 | h0
      · simp [h0]
      · intro d hd; exact List.mem_cons_of_mem c (ih l h0 d hd)
    · rw [if_neg h] at hl
      cases hs : splitNl cs with
      | nil => exact absurd hs (splitNl_ne_nil cs)
      | cons m ms =>
        rw [hs] at hl
        simp only [consHead, List.mem_cons] at hl
        rcases hl with h0 | h0
        · subst h0
          intro d hd
          rcases List.mem_cons.mp hd with h1 | h1
          · subst h1; exact List.mem_cons_self _ _
          · exact List.mem_cons_of_mem _
              (ih m (by rw [hs]; exact List.mem_cons_self m ms) d h1)
        · intro d hd
          exact List.mem_cons_of_mem c
            (ih l (by rw [hs]; exact List.mem_cons_of_mem m h0) d hd)

theorem splitNl_of_no_newline (l : List Char) (h : ∀ c ∈ l, c ≠ '\n') :
    splitNl l = [l] := by
  induction l with
  | nil => rfl
  | cons c cs ih =>
    simp only [splitNl]
    rw [if_neg (h c (List.mem_cons_self c cs))]
    rw [ih (fun d hd => h d (List.mem_cons_of_mem c hd))]
    rfl

theorem splitNl_append_newline (x t : List Char) (hx : ∀ c ∈ x, c ≠ '\n') :
    splitNl (x ++ '\n' :: t) = x :: splitNl t := by
  induction x with
  | nil => simp [splitNl]
  | cons c cs ih =>
    simp only [List.cons_append, splitNl, List.append_eq]
    rw [if_neg (hx c (List.mem_cons_self c cs))]
    rw [ih (fun d hd => hx d (List.mem_cons_of_mem c hd))]
    rfl

theorem splitNl_joinNl (L : List (List Char)) (hL : L ≠ [])
    (h : ∀ l ∈ L, ∀ c ∈ l, c ≠ '\n') : splitNl (joinNl L) = L := by
  induction L with
  | nil => exact absurd rfl hL
  | cons x r ih =>
    cases r with
    | nil =>
      simp only [joinNl, List.intercalate]
      simpa using splitNl_of_no_newline x (h x (List.mem_cons_self x []))
    | cons y r' =>
      have hjoin : joinNl (x :: y :: r') = x ++ '\n' :: joinNl (y :: r') := by
        simp [joinNl, List.intercalate, List.intersperse]
      rw [hjoin, splitNl_append_newline x _ (h x (List.mem_cons_self x _))]
      rw [ih (by simp) (fun l hl => h l (List.mem_cons_of_mem x hl))]

/-- Collapsing blank runs deletes only empty lines: the line list of the
output is a sublist of the input's, and (when fewer than two newlines were
just seen) the first line is untouched. -/

theorem collapseNl_lines (s : List Char) :
    ∀ seen : Nat, List.Sublist (splitNl (collapseNl seen s)) (splitNl s) ∧
      (seen < 2 → ∃ t, splitNl (collapseNl seen s) = (splitNl s).headI :: t ∧
        List.Sublist t ((splitNl s).tail)) := by
  induction s with
  | nil =>
    intro seen
    constructor
    · simp [collapseNl]
    · intro _; exact ⟨[], by simp [collapseNl, splitNl], by simp [splitNl]⟩
  | cons c cs ih =>
    intro seen
    by_cases hc : c = '\n'
    · subst hc
      by_cases hs : seen < 2
      · have key : collapseNl seen ('\n' :: cs) = '\n' :: collapseNl (seen + 1) cs := by
          simp [collapseNl, hs]
        rw [key]
        have hsplit : splitNl ('\n' :: collapseNl (seen + 1) cs)
            = [] :: splitNl (collapseNl (seen + 1) cs) := by simp [splitNl]
        have hsplit2 : splitNl ('\n' :: cs) = [] :: splitNl cs := by simp [splitNl]
        rw [hsplit, hsplit2]
        by_cases hs1 : seen + 1 < 2
        · obtain ⟨t, ht, hsub⟩ := (ih (seen + 1)).2 hs1
          obtain ⟨b, bs, hbs⟩ : ∃ b bs, splitNl cs = b :: bs :=
            List.exists_cons_of_ne_nil (splitNl_ne_nil cs)
          rw [hbs] at ht hsub ⊢
          simp only [List.headI] at ht
          simp only [List.tail_cons] at hsub
          constructor
          · rw [ht]
            exact List.Sublist.cons₂ [] (List.Sublist.cons₂ b hsub)
          · intro _
            exact ⟨b :: t, by rw [ht]; rfl, by simpa using List.Sublist.cons₂ b hsub⟩
        · have h1 := (ih (seen + 1)).1
          constructor
          · exact List.Sublist.cons₂ [] h1
          · intro _
            exact ⟨splitNl (collapseNl (seen + 1) cs), rfl, h1⟩
      · have key : collapseNl seen ('\n' :: cs) = collapseNl seen cs := by
          simp [collapseNl, hs]
        rw [key]
        have hsplit2 : splitNl ('\n' :: cs) = [] :: splitNl cs := by simp [splitNl]
        rw [hsplit2]
        constructor
        · exact ((ih seen).1).cons []
        · intro h; exact absurd h hs
    · have key : collapseNl seen (c :: cs) = c :: collapseNl 0 cs := by
        simp [collapseNl, hc]
      rw [key]
      obtain ⟨t, ht, hsub⟩ := (ih 0).2 (by norm_num)
      obtain ⟨b, bs, hbs⟩ : ∃ b bs, splitNl cs = b :: bs :=
        List.exists_cons_of_ne_nil (splitNl_ne_nil cs)
      rw [hbs] at ht hsub
      simp only [List.headI, List.tail_cons] at ht hsub
      have hsplitc : splitNl (c :: collapseNl 0 cs) = (c :: b) :: t := by
        simp only [splitNl, if_neg hc, ht, consHead]
      have hsplitc2 : splitNl (c :: cs) = (c :: b) :: bs := by
        simp only [splitNl, if_neg hc, hbs, consHead]
      rw [hsplitc, hsplitc2]
      constructor
      · exact List.Sublist.cons₂ (c :: b) hsub
      · intro _
        exact ⟨t, by simp [List.headI], by simpa using hsub⟩

theorem PrefixRel.mem (xs ys : List (List Char)) (h : PrefixRel xs ys) :
    ∀ l ∈ xs, ∃ l' ∈ ys, ∃ b, l' = l ++ b ∧ ∀ c ∈ b, isJsWs c = true := by
  induction h with
  | nil => intro l hl; simp at hl
  | cons x b xs ys hb _ ih =>
    intro l hl
    rcases List.mem_cons.mp hl with h0 | h0
    · subst h0
      exact ⟨l ++ b, List.mem_cons_self _ _, b, rfl, hb⟩
    · obtain ⟨l', hl', b', hb', hws⟩ := ih l h0
      exact ⟨l', List.mem_cons_of_mem _ hl', b', hb', hws⟩

theorem PrefixRel.cons_inv (x : List Char) (xs Y : List (List Char))
    (h : PrefixRel (x :: xs) Y) :
    ∃ b ys, Y = (x ++ b) :: ys ∧ (∀ c ∈ b, isJsWs c = true) ∧ PrefixRel xs ys := by
  cases h with
  | cons x b xs ys hb hrel => exact ⟨b, ys, rfl, hb, hrel⟩

theorem allWs_splitNl (s : List Char) (hs : ∀ c ∈ s, isJsWs c = true) :
    ∀ l ∈ splitNl s, ∀ c ∈ l, isJsWs c = true :=
  fun l hl c hc => hs c (splitNl_mem_chars s l hl c hc)

theorem dropTrailWs_nil_ws (s : List Char) (h : dropTrailWs s = []) :
    ∀ c ∈ s, isJsWs c = true := by
  induction s with
  | nil => simp
  | cons c cs ih =>
    simp only [dropTrailWs] at h
    intro d hd
    cases hr : dropTrailWs cs with
    | nil =>
      rw [hr] at h
      rcases List.mem_cons.mp hd with h0 | h0
      · subst h0
        by_cases hw : isJsWs d = true
        · exact hw
        · rw [if_neg hw] at h; simp at h
      · exact ih hr d h0
    | cons r rs => rw [hr] at h; simp at h

theorem dropTrailWs_lines (s : List Char) :
    PrefixRel (splitNl (dropTrailWs s)) (splitNl s) := by
  induction s with
  | nil =>
    show PrefixRel [[]] [[]]
    exact PrefixRel.cons [] [] [] [] (by simp) (PrefixRel.nil [])
  | cons c cs ih =>
    obtain ⟨h, t, hht⟩ : ∃ h t, splitNl cs = h :: t :=
      List.exists_cons_of_ne_nil (splitNl_ne_nil cs)
    simp only [dropTrailWs]
    cases hr : dropTrailWs cs with
    | nil =>
      have hws : ∀ d ∈ cs, isJsWs d = true := dropTrailWs_nil_ws cs hr
      have hHead : ∀ d ∈ h, isJsWs d = true :=
        allWs_splitNl cs hws h (by rw [hht]; exact List.mem_cons_self _ _)
      by_cases hc : isJsWs c = true
      · rw [if_pos hc]
        by_cases hcn : c = '\n'
        · have h2 : splitNl (c :: cs) = [] :: splitNl cs := by
            simp [splitNl, hcn]
          rw [h2]
          show PrefixRel [[]] ([] :: splitNl cs)
          exact PrefixRel.cons [] [] [] (splitNl cs) (by simp) (PrefixRel.nil _)
        · have h2 : splitNl (c :: cs) = (c :: h) :: t := by
            simp only [splitNl, if_neg hcn, hht, consHead]
          rw [h2]
          show PrefixRel [[]] ((c :: h) :: t)
          have hbw : ∀ d ∈ c :: h, isJsWs d = true := by
            intro d hd
            rcases List.mem_cons.mp hd with h0 | h0
            · subst h0; exact hc
            · exact hHead d h0
          exact PrefixRel.cons [] (c :: h) [] t hbw (PrefixRel.nil t)
      · rw [if_neg hc]
        have hcn : c ≠ '\n' := by
          intro h0; subst h0; exact hc (by decide)
        have h2 : splitNl (c :: cs) = (c :: h) :: t := by
          simp only [splitNl, if_neg hcn, hht, consHead]
        have h4 : splitNl [c] = [[c]] := by
          simp [splitNl, hcn, consHead]
        show PrefixRel (splitNl [c]) (splitNl (c :: cs))
        rw [h2, h4]
        have hx : (c :: h) = [c] ++ h := rfl
        rw [hx]
        exact PrefixRel.cons [c] h [] t hHead (PrefixRel.nil t)
    | cons r rs =>
      show PrefixRel (splitNl (c :: (r :: rs))) (splitNl (c :: cs))
      rw [← hr]
      by_cases hcn : c = '\n'
      · have h2 : splitNl (c :: dropTrailWs cs) = [] :: splitNl (dropTrailWs cs) := by
          simp [splitNl, hcn]
        have h3 : splitNl (c :: cs) = [] :: splitNl cs := by
          simp [splitNl, hcn]
        rw [h2, h3]
        exact PrefixRel.cons [] [] _ _ (by simp) ih
      · obtain ⟨h', t', hht'⟩ : ∃ h' t', splitNl (dropTrailWs cs) = h' :: t' :=
          List.exists_cons_of_ne_nil (splitNl_ne_nil _)
        rw [hht'] at ih
        obtain ⟨b, ys, hcs, hbws, hrel⟩ := PrefixRel.cons_inv h' t' _ ih
        have h2 : splitNl (c :: dropTrailWs cs) = (c :: h') :: t' := by
          simp only [splitNl, if_neg hcn, hht', consHead]
        have h3 : splitNl (c :: cs) = (c :: (h' ++ b)) :: ys := by
          simp only [splitNl, if_neg hcn, hcs, consHead]
        rw [h2, h3]
        have hx : c :: (h' ++ b) = (c :: h') ++ b := rfl
        rw [hx]
        exact PrefixRel.cons (c :: h') b t' ys hbws hrel

/-- Left trim: every line of `dropWhile ws s` is some line of `s` with a
whitespace prefix removed. -/

theorem dropWhileWs_lines (s : List Char) :
    ∀ l ∈ splitNl (s.dropWhile isJsWs),
      ∃ l' ∈ splitNl s, ∃ a, l' = a ++ l ∧ ∀ c ∈ a, isJsWs c = true := by
  induction s with
  | nil =>
    intro l hl
    exact ⟨l, hl, [], rfl, by simp⟩
  | cons c cs ih =>
    intro l hl
    by_cases hc : isJsWs c = true
    · rw [List.dropWhile_cons, if_pos hc] at hl
      obtain ⟨l', hl', a, ha, haws⟩ := ih l hl
      by_cases hcn : c = '\n'
      · have h3 : splitNl (c :: cs) = [] :: splitNl cs := by
          simp [splitNl, hcn]
        rw [h3]
        exact ⟨l', List.mem_cons_of_mem _ hl', a, ha, haws⟩
      · obtain ⟨h, t, hht⟩ : ∃ h t, splitNl cs = h :: t :=
          List.exists_cons_of_ne_nil (splitNl_ne_nil cs)
        have h3 : splitNl (c :: cs) = (c :: h) :: t := by
          simp only [splitNl, if_neg hcn, hht, consHead]
        rw [hht] at hl'
        rcases List.mem_cons.mp hl' with h0 | h0
        · subst h0
          refine ⟨c :: l', by rw [h3]; exact List.mem_cons_self _ _, c :: a,
            by rw [ha, List.cons_append], ?_⟩
          intro d hd
          rcases List.mem_cons.mp hd with h1 | h1
          · subst h1; exact hc
          · exact haws d h1
        · exact ⟨l', by rw [h3]; exact List.mem_cons_of_mem _ h0, a, ha, haws⟩
    · rw [List.dropWhile_cons, if_neg hc] at hl
      exact ⟨l, hl, [], rfl, by simp⟩

/-! ## Brand-scanner padding lemmas -/

theorem isPrefixOf_map_lower_append (pat : List Char) :
    ∀ (x b : List Char), (∀ c ∈ pat, isJsWs c = false) →
      (∀ c ∈ b, isJsWs c = true) →
      pat.isPrefixOf ((x ++ b).map lowerCh) = pat.isPrefixOf (x.map lowerCh) := by
  induction pat with
  | nil => intro x b _ _; simp [List.isPrefixOf]
  | cons pc pt ih =>
    intro x b hpat hb
    cases x with
    | nil =>
      simp only [List.nil_append, List.map_nil]
      cases b with
      | nil => simp
      | cons c cs =>
        have hcw : isJsWs (lowerCh c) = true := ws_lower_ws c (hb c (List.mem_cons_self c cs))
        have hpcw : isJsWs pc = false := hpat pc (List.mem_cons_self pc pt)
        have hne : (pc == lowerCh c) = false := by
          apply beq_eq_false_iff_ne.mpr
          intro h0
          rw [h0, hcw] at hpcw
          simp at hpcw
        simp [List.isPrefixOf, hne]
    | cons xc xt =>
      simp only [List.cons_append, List.map_cons, List.isPrefixOf, List.append_eq]
      rw [ih xt b (fun c hc => hpat c (List.mem_cons_of_mem pc hc)) hb]

theorem isPrefixOf_length (pat l : List Char) (h : pat.isPrefixOf l = true) :
    pat.length ≤ l.length :=
  (List.isPrefixOf_iff_prefix.mp h).length_le

theorem tldOk_length (t : String) (r2 : List Char) (h : tldOk t r2 = true) :
    t.data.length ≤ r2.length := by
  unfold tldOk at h
  rw [Bool.and_eq_true] at h
  have := isPrefixOf_length t.data (r2.map lowerCh) h.1
  simpa using this

theorem tldOk_append (t : String) (r2 b : List Char)
    (hpat : ∀ c ∈ t.data, isJsWs c = false) (hb : ∀ c ∈ b, isJsWs c = true) :
    tldOk t (r2 ++ b) = tldOk t r2 := by
  unfold tldOk
  rw [isPrefixOf_map_lower_append t.data r2 b hpat hb]
  cases hp : t.data.isPrefixOf (r2.map lowerCh) with
  | false => simp
  | true =>
    have hn : t.data.length ≤ r2.length := by
      have := isPrefixOf_length t.data (r2.map lowerCh) hp
      simpa using this
    rw [List.drop_append_of_le_length hn]
    rw [wordNext_append (r2.drop t.data.length) b (wsList_wordNext b hb)]

theorem tldAt_append (r2 b : List Char) (hb : ∀ c ∈ b, isJsWs c = true) :
    tldAt (r2 ++ b) = tldAt r2 := by
  have h1 := tldOk_append "com" r2 b (by decide) hb
  have h2 := tldOk_append "io" r2 b (by decide) hb
  have h3 := tldOk_append "ai" r2 b (by decide) hb
  have h4 := tldOk_append "app" r2 b (by decide) hb
  have h5 := tldOk_append "co" r2 b (by decide) hb
  have h6 := tldOk_append "org" r2 b (by decide) hb
  have h7 := tldOk_append "net" r2 b (by decide) hb
  simp only [tldAt, h1, h2, h3, h4, h5, h6, h7]

theorem tldAt_le (r2 : List Char) (n : Nat) (h : tldAt r2 = some n) :
    1 ≤ n ∧ n ≤ r2.length := by
  unfold tldAt at h
  by_cases h1 : tldOk "com" r2 = true
  · rw [if_pos h1] at h
    injection h with h'
    have hL : "com".data.length = 3 := rfl
    have := tldOk_length "com" r2 h1
    rw [hL] at this
    omega
  rw [if_neg h1] at h
  by_cases h2 : tldOk "io" r2 = true
  · rw [if_pos h2] at h
    injection h with h'
    have hL : "io".data.length = 2 := rfl
    have := tldOk_length "io" r2 h2
    rw [hL] at this
    omega
  rw [if_neg h2] at h
  by_cases h3 : tldOk "ai" r2 = true
  · rw [if_pos h3] at h
    injection h with h'
    have hL : "ai".data.length = 2 := rfl
    have := tldOk_length "ai" r2 h3
    rw [hL] at this
    omega
  rw [if_neg h3] at h
  by_cases h4 : tldOk "app" r2 = true
  · rw [if_pos h4] at h
    injection h with h'
    have hL : "app".data.length = 3 := rfl
    have := tldOk_length "app" r2 h4
    rw [hL] at this
    omega
  rw [if_neg h4] at h
  by_cases h5 : tldOk "co" r2 = true
  · rw [if_pos h5] at h
    injection h with h'
    have hL : "co".data.length = 2 := rfl
    have := tldOk_length "co" r2 h5
    rw [hL] at this
    omega
  rw [if_neg h5] at h
  by_cases h6 : tldOk "org" r2 = true
  · rw [if_pos h6] at h
    injection h with h'
    have hL : "org".data.length = 3 := rfl
    have := tldOk_length "org" r2 h6
    rw [hL] at this
    omega
  rw [if_neg h6] at h
  by_cases h7 : tldOk "net" r2 = true
  · rw [if_pos h7] at h
    injection h with h'
    have hL : "net".data.length = 3 := rfl
    have := tldOk_length "net" r2 h7
    rw [hL] at this
    omega
  rw [if_neg h7] at h
  exact absurd h (by simp)

theorem drop_takeWhile_length (p : Char → Bool) (l : List Char) :
    l.drop (l.takeWhile p).length = l.dropWhile p := by
  have h := List.takeWhile_append_dropWhile p l
  conv_rhs => rw [← List.drop_left (l.takeWhile p) (l.dropWhile p)]
  rw [h]

theorem matchDomAt_le (w : Bool) (s : List Char) (n : Nat) (r : List Char)
    (h : matchDomAt w s = some (n, r)) :
    1 ≤ n ∧ n ≤ s.length ∧ r = s.drop n := by
  cases s with
  | nil => simp [matchDomAt] at h
  | cons c cs =>
    simp only [matchDomAt] at h
    by_cases hw : w = isWordChar c
    · rw [if_pos hw] at h; simp at h
    rw [if_neg hw] at h
    by_cases hrun : ((c :: cs).takeWhile domCh).isEmpty = true
    · rw [if_pos hrun] at h; simp at h
    rw [if_neg hrun] at h
    cases hd : (c :: cs).drop ((c :: cs).takeWhile domCh).length with
    | nil => simp only [hd] at h; exact Option.noConfusion h
    | cons d r2 =>
      simp only [hd] at h
      by_cases hdot : d = '.'
      · rw [if_pos hdot] at h
        cases htld : tldAt r2 with
        | none => simp only [htld] at h; exact Option.noConfusion h
        | some tl =>
          simp only [htld, Option.some.injEq, Prod.mk.injEq] at h
          obtain ⟨hn, hr⟩ := h
          have hrunle : ((c :: cs).takeWhile domCh).length ≤ (c :: cs).length :=
            length_takeWhile_le' domCh (c :: cs)
          have hlen : ((c :: cs).drop ((c :: cs).takeWhile domCh).length).length
              = (c :: cs).length - ((c :: cs).takeWhile domCh).length :=
            List.length_drop _ _
          rw [hd] at hlen
          simp only [List.length_cons] at hlen
          have htl := tldAt_le r2 tl htld
          have hrun1 : 1 ≤ ((c :: cs).takeWhile domCh).length := by
            cases hq : (c :: cs).takeWhile domCh with
            | nil => rw [hq] at hrun; simp at hrun
            | cons q qs => simp [hq]
          refine ⟨by omega, by simp only [List.length_cons]; omega, ?_⟩
          have hd2 : (c :: cs).drop (((c :: cs).takeWhile domCh).length + 1) = r2 := by
            have h5 := congrArg (List.drop 1) hd
            rw [List.drop_drop] at h5
            simpa [Nat.add_comm] using h5
          subst hn hr
          rw [← hd2, List.drop_drop]
      · rw [if_neg hdot] at h
        exact Option.noConfusion h

theorem matchDomAt_ws_head (w : Bool) (c : Char) (cs : List Char)
    (hc : isJsWs c = true) : matchDomAt w (c :: cs) = none := by
  simp only [matchDomAt]
  by_cases hw : w = isWordChar c
  · rw [if_pos hw]
  · rw [if_neg hw]
    have ht : (c :: cs).takeWhile domCh = [] := by
      rw [List.takeWhile_cons, ws_not_domCh c hc]
      simp
    rw [ht]
    simp

theorem matchDomAt_append (w : Bool) (x b : List Char)
    (hb : ∀ c ∈ b, isJsWs c = true) :
    matchDomAt w (x ++ b) = (matchDomAt w x).map (fun p => (p.1, p.2 ++ b)) := by
  have hbdom : ∀ c ∈ b, domCh c = false := fun c hc => ws_not_domCh c (hb c hc)
  cases x with
  | nil =>
    simp only [List.nil_append, matchDomAt, Option.map_none']
    cases b with
    | nil => simp [matchDomAt]
    | cons c cs =>
      exact matchDomAt_ws_head w c cs (hb c (List.mem_cons_self c cs))
  | cons c cs =>
    simp only [List.cons_append, matchDomAt]
    by_cases hw : w = isWordChar c
    · rw [if_pos hw, if_pos hw]; rfl
    rw [if_neg hw, if_neg hw]
    have htw : (c :: (cs ++ b)).takeWhile domCh = (c :: cs).takeWhile domCh := by
      have h0 := (takeWhile_append_stop domCh (c :: cs) b hbdom).1
      simpa using h0
    rw [htw]
    by_cases hrun : ((c :: cs).takeWhile domCh).isEmpty = true
    · rw [if_pos hrun, if_pos hrun]; rfl
    rw [if_neg hrun, if_neg hrun]
    have hrle : ((c :: cs).takeWhile domCh).length ≤ (c :: cs).length :=
      length_takeWhile_le' domCh (c :: cs)
    have hdrop : (c :: (cs ++ b)).drop ((c :: cs).takeWhile domCh).length
        = (c :: cs).drop ((c :: cs).takeWhile domCh).length ++ b := by
      have hx : c :: (cs ++ b) = (c :: cs) ++ b := rfl
      rw [hx, List.drop_append_of_le_length hrle]
    rw [hdrop]
    cases hd : (c :: cs).drop ((c :: cs).takeWhile domCh).length with
    | nil =>
      simp only [List.nil_append]
      cases b with
      | nil => rfl
      | cons d ds =>
        have hdne : ¬ d = '.' := by
          intro h0
          exact (ws_ne_dot d (hb d (List.mem_cons_self d ds))).mp h0
        simp only [if_neg hdne]
        rfl
    | cons d r2 =>
      simp only [List.cons_append]
      by_cases hdot : d = '.'
      · simp only [if_pos hdot]
        rw [tldAt_append r2 b hb]
        cases htld : tldAt r2 with
        | none => rfl
        | some tl =>
          have htlle := (tldAt_le r2 tl htld).2
          simp only [Option.map_some']
          rw [List.drop_append_of_le_length htlle]
      · simp only [if_neg hdot]
        rfl

theorem domScanF_allWs (b : List Char) (hb : ∀ c ∈ b, isJsWs c = true) :
    ∀ (fuel : Nat) (w : Bool), domScanF fuel w b = [] := by
  induction b with
  | nil => intro fuel w; cases fuel <;> rfl
  | cons c cs ih =>
    intro fuel w
    cases fuel with
    | zero => rfl
    | succ f =>
      simp only [domScanF, matchDomAt_ws_head w c cs (hb c (List.mem_cons_self c cs))]
      exact ih (fun d hd => hb d (List.mem_cons_of_mem c hd)) f (isWordChar c)

theorem domScanF_append (b : List Char) (hb : ∀ c ∈ b, isJsWs c = true) :
    ∀ (fuel : Nat) (w : Bool) (x : List Char),
      domScanF fuel w (x ++ b) = domScanF fuel w x := by
  intro fuel
  induction fuel with
  | zero => intro w x; rfl
  | succ f ih =>
    intro w x
    cases x with
    | nil =>
      simp only [List.nil_append]
      rw [domScanF_allWs b hb]
      rfl
    | cons c cs =>
      simp only [domScanF, List.append_eq, List.cons_append]
      have hpad := matchDomAt_append w (c :: cs) b hb
      simp only [List.cons_append] at hpad
      cases hm : matchDomAt w (c :: cs) with
      | none =>
        rw [hm] at hpad
        simp only [Option.map_none'] at hpad
        simp only [hpad, hm]
        exact ih (isWordChar c) cs
      | some p =>
        obtain ⟨len, rest⟩ := p
        rw [hm] at hpad
        simp only [Option.map_some'] at hpad
        simp only [hpad, hm]
        obtain ⟨h1, h2, h3⟩ := matchDomAt_le w (c :: cs) len rest hm
        rw [← List.cons_append, List.take_append_of_le_length h2, ih true rest]

theorem domScanF_fuel : ∀ (f1 : Nat) (f2 : Nat) (w : Bool) (x : List Char),
    x.length ≤ f1 → x.length ≤ f2 → domScanF f1 w x = domScanF f2 w x := by
  intro f1
  induction f1 with
  | zero =>
    intro f2 w x h1 _
    have : x = [] := List.length_eq_zero.mp (Nat.le_zero.mp h1)
    subst this
    cases f2 <;> rfl
  | succ f ih =>
    intro f2 w x h1 h2
    cases x with
    | nil => cases f2 <;> rfl
    | cons c cs =>
      cases f2 with
      | zero => simp at h2
      | succ f2' =>
        simp only [domScanF]
        cases hm : matchDomAt w (c :: cs) with
        | none =>
          simp only [hm]
          simp only [List.length_cons] at h1 h2
          exact ih f2' (isWordChar c) cs (by omega) (by omega)
        | some p =>
          obtain ⟨len, rest⟩ := p
          simp only [hm]
          obtain ⟨hl1, hl2, hl3⟩ := matchDomAt_le w (c :: cs) len rest hm
          have hrl : rest.length ≤ (c :: cs).length - len := by
            rw [hl3, List.length_drop]
          simp only [List.length_cons] at h1 h2 hl2
          rw [ih f2' true rest (by simp at hrl; omega) (by simp at hrl; omega)]

theorem domScanF_ws_prefix (l : List Char) :
    ∀ (a : List Char) (fuel : Nat), (∀ c ∈ a, isJsWs c = true) →
      domScanF (a.length + fuel) false (a ++ l) = domScanF fuel false l := by
  intro a
  induction a with
  | nil => intro fuel _; simp
  | cons c a' ih =>
    intro fuel ha
    have hc := ha c (List.mem_cons_self c a')
    have hstep : (c :: a').length + fuel = (a'.length + fuel) + 1 := by
      simp [List.length_cons]; omega
    rw [hstep]
    simp only [List.cons_append, domScanF, List.append_eq]
    simp only [matchDomAt_ws_head false c (a' ++ l) hc]
    rw [ws_not_word c hc]
    exact ih fuel (fun d hd => ha d (List.mem_cons_of_mem c hd))

theorem takeWhile_all_self (p : Char → Bool) (r : List Char)
    (hr : ∀ c ∈ r, p c = true) : r.takeWhile p = r := by
  have := (takeWhile_append_of_all p r [] hr (by simp)).1
  simpa using this

theorem dropWhile_nil_all (p : Char → Bool) (r : List Char)
    (hr : r.dropWhile p = []) : ∀ c ∈ r, p c = true := by
  induction r with
  | nil => simp
  | cons c cs ih =>
    intro d hd
    rw [List.dropWhile_cons] at hr
    by_cases hp : p c = true
    · rw [if_pos hp] at hr
      rcases List.mem_cons.mp hd with h0 | h0
      · subst h0; exact hp
      · exact ih hr d h0
    · rw [if_neg hp] at hr
      simp at hr

theorem matchRep_allWs (r : List Char) (hr : ∀ c ∈ r, isJsWs c = true) :
    matchRep r = none := by
  cases r with
  | nil => rfl
  | cons c cs =>
    simp only [matchRep]
    rw [takeWhile_all_self isJsWs (c :: cs) hr]
    rw [if_neg (by simp)]
    rw [List.drop_length]

theorem matchRep_le (r : List Char) (d : Nat) (h : matchRep r = some d) :
    1 ≤ d ∧ d ≤ r.length := by
  simp only [matchRep] at h
  by_cases hws : (r.takeWhile isJsWs).isEmpty = true
  · rw [if_pos hws] at h; exact Option.noConfusion h
  rw [if_neg hws] at h
  cases hd : r.drop (r.takeWhile isJsWs).length with
  | nil => simp only [hd] at h; exact Option.noConfusion h
  | cons c cs =>
    simp only [hd] at h
    by_cases hup : isUpperCh c = true
    · rw [if_pos hup] at h
      by_cases hrn : (cs.takeWhile isAlnumLow).isEmpty = true
      · rw [if_pos hrn] at h; exact Option.noConfusion h
      · rw [if_neg hrn] at h
        injection h with h'
        have h1 : (r.takeWhile isJsWs).length ≤ r.length := length_takeWhile_le' _ _
        have h2 : (r.drop (r.takeWhile isJsWs).length).length
            = r.length - (r.takeWhile isJsWs).length := List.length_drop _ _
        rw [hd] at h2
        simp only [List.length_cons] at h2
        have h3 : (cs.takeWhile isAlnumLow).length ≤ cs.length := length_takeWhile_le' _ _
        omega
    · rw [if_neg hup] at h; exact Option.noConfusion h

theorem matchRep_append (r b : List Char) (hb : ∀ c ∈ b, isJsWs c = true) :
    matchRep (r ++ b) = matchRep r := by
  by_cases hall : r.dropWhile isJsWs = []
  · have hrw : ∀ c ∈ r, isJsWs c = true := dropWhile_nil_all isJsWs r hall
    rw [matchRep_allWs r hrw]
    refine matchRep_allWs (r ++ b) ?_
    intro c hc
    rcases List.mem_append.mp hc with h0 | h0
    · exact hrw c h0
    · exact hb c h0
  · obtain ⟨h1, h2⟩ := takeWhile_append_within isJsWs r b hall
    simp only [matchRep]
    rw [h1]
    have hdL : (r ++ b).drop (r.takeWhile isJsWs).length = r.dropWhile isJsWs ++ b := by
      have hx : (r ++ b).drop ((r ++ b).takeWhile isJsWs).length = (r ++ b).dropWhile isJsWs :=
        drop_takeWhile_length _ _
      rw [h1, h2] at hx
      exact hx
    have hdR : r.drop (r.takeWhile isJsWs).length = r.dropWhile isJsWs :=
      drop_takeWhile_length _ _
    rw [hdL, hdR]
    by_cases hws : (r.takeWhile isJsWs).isEmpty = true
    · rw [if_pos hws, if_pos hws]
    rw [if_neg hws, if_neg hws]
    cases hdw : r.dropWhile isJsWs with
    | nil => exact absurd hdw hall
    | cons c cs =>
      simp only [List.cons_append]
      by_cases hup : isUpperCh c = true
      · rw [if_pos hup, if_pos hup]
        have hstop : ∀ d ∈ b, isAlnumLow d = false :=
          fun d hd => ws_not_alnumLow d (hb d hd)
        rw [(takeWhile_append_stop isAlnumLow cs b hstop).1]
      · rw [if_neg hup, if_neg hup]

theorem find?_cong (p q : Nat → Bool) (l : List Nat) (h : ∀ e ∈ l, p e = q e) :
    l.find? p = l.find? q := by
  induction l with
  | nil => rfl
  | cons a l ih =>
    rw [List.find?_cons, List.find?_cons]
    rw [h a (List.mem_cons_self a l)]
    cases q a with
    | true => rfl
    | false => exact ih (fun e he => h e (List.mem_cons_of_mem a he))

theorem matchCapAt_le (w : Bool) (s : List Char) (n : Nat) (r : List Char)
    (h : matchCapAt w s = some (n, r)) :
    1 ≤ n ∧ n ≤ s.length ∧ r = s.drop n := by
  cases s with
  | nil => simp [matchCapAt] at h
  | cons c cs =>
    simp only [matchCapAt, capPick, capCands] at h
    by_cases hw : w = true
    · rw [if_pos hw] at h; exact Option.noConfusion h
    rw [if_neg hw] at h
    by_cases hup : isUpperCh c = true
    · rw [if_pos hup] at h
      by_cases hrn : (cs.takeWhile isAlnumLow).isEmpty = true
      · rw [if_pos hrn] at h; exact Option.noConfusion h
      rw [if_neg hrn] at h
      have hr1 : (cs.takeWhile isAlnumLow).length ≤ cs.length := length_takeWhile_le' _ _
      cases hrep1 : matchRep ((c :: cs).drop (1 + (cs.takeWhile isAlnumLow).length)) with
      | none =>
        simp only [hrep1] at h
        cases hfind : ([1 + (cs.takeWhile isAlnumLow).length].find?
            (fun e => !wordNext ((c :: cs).drop e))) with
        | none => simp only [hfind] at h; exact Option.noConfusion h
        | some e =>
          simp only [hfind, Option.some.injEq, Prod.mk.injEq] at h
          obtain ⟨hn, hr⟩ := h
          subst hn; subst hr
          have he := List.mem_of_find?_eq_some hfind
          simp only [List.mem_cons, List.not_mem_nil, or_false] at he
          refine ⟨by omega, by simp only [List.length_cons]; omega, rfl⟩
      | some d1 =>
        simp only [hrep1] at h
        have hb1 := matchRep_le _ d1 hrep1
        have hdl1 : ((c :: cs).drop (1 + (cs.takeWhile isAlnumLow).length)).length
            = cs.length - (cs.takeWhile isAlnumLow).length := by
          rw [List.length_drop]; simp only [List.length_cons]; omega
        rw [hdl1] at hb1
        obtain ⟨hb1a, hb1b⟩ := hb1
        have hx1 : (cs.takeWhile isAlnumLow).length + d1 ≤ cs.length := by omega
        cases hrep2 : matchRep ((c :: cs).drop
            (1 + (cs.takeWhile isAlnumLow).length + d1)) with
        | none =>
          simp only [hrep2] at h
          cases hfind : ([1 + (cs.takeWhile isAlnumLow).length + d1,
              1 + (cs.takeWhile isAlnumLow).length].find?
              (fun e => !wordNext ((c :: cs).drop e))) with
          | none => simp only [hfind] at h; exact Option.noConfusion h
          | some e =>
            simp only [hfind, Option.some.injEq, Prod.mk.injEq] at h
            obtain ⟨hn, hr⟩ := h
            subst hn; subst hr
            have he := List.mem_of_find?_eq_some hfind
            simp only [List.mem_cons, List.not_mem_nil, or_false] at he
            have hgoal : 1 ≤ e ∧ e ≤ (c :: cs).length := by
              simp only [List.length_cons]
              rcases he with he | he
              · omega
              · omega
            exact ⟨hgoal.1, hgoal.2, rfl⟩
        | some d2 =>
          simp only [hrep2] at h
          have hb2 := matchRep_le _ d2 hrep2
          have hdl2 : ((c :: cs).drop (1 + (cs.takeWhile isAlnumLow).length + d1)).length
              = cs.length - (cs.takeWhile isAlnumLow).length - d1 := by
            rw [List.length_drop]; simp only [List.length_cons]; omega
          rw [hdl2] at hb2
          obtain ⟨hb2a, hb2b⟩ := hb2
          have hx2 : (cs.takeWhile isAlnumLow).length + d1 + d2 ≤ cs.length := by omega
          cases hfind : ([1 + (cs.takeWhile isAlnumLow).length + d1 + d2,
              1 + (cs.takeWhile isAlnumLow).length + d1,
              1 + (cs.takeWhile isAlnumLow).length].find?
              (fun e => !wordNext ((c :: cs).drop e))) with
          | none => simp only [hfind] at h; exact Option.noConfusion h
          | some e =>
            simp only [hfind, Option.some.injEq, Prod.mk.injEq] at h
            obtain ⟨hn, hr⟩ := h
            subst hn; subst hr
            have he := List.mem_of_find?_eq_some hfind
            simp only [List.mem_cons, List.not_mem_nil, or_false] at he
            have hgoal : 1 ≤ e ∧ e ≤ (c :: cs).length := by
              simp only [List.length_cons]
              rcases he with he | he | he
              · omega
              · omega
              · omega
            exact ⟨hgoal.1, hgoal.2, rfl⟩
    · rw [if_neg hup] at h; exact Option.noConfusion h

theorem matchCapAt_ws_head (w : Bool) (c : Char) (cs : List Char)
    (hc : isJsWs c = true) : matchCapAt w (c :: cs) = none := by
  simp only [matchCapAt]
  by_cases hw : w = true
  · rw [if_pos hw]
  · rw [if_neg hw, ws_not_upper c hc]
    simp

theorem drop_append_ws_all (x b : List Char) (hb : ∀ c ∈ b, isJsWs c = true)
    (k : Nat) (hk : x.length ≤ k) : ∀ c ∈ (x ++ b).drop k, isJsWs c = true := by
  intro c hc
  have h1 : (x ++ b).drop k = b.drop (k - x.length) := by
    have hk2 : k = x.length + (k - x.length) := by omega
    rw [hk2, List.drop_append]
    congr 1
    omega
  rw [h1] at hc
  exact hb c (List.mem_of_mem_drop hc)

theorem capPick_append (x b : List Char) (cands : List Nat)
    (hb : ∀ c ∈ b, isJsWs c = true) (hc : ∀ e ∈ cands, e ≤ x.length) :
    capPick (x ++ b) cands = (capPick x cands).map (fun p => (p.1, p.2 ++ b)) := by
  simp only [capPick]
  have hcong : cands.find? (fun e => !wordNext ((x ++ b).drop e))
      = cands.find? (fun e => !wordNext (x.drop e)) := by
    apply find?_cong
    intro e he
    rw [List.drop_append_of_le_length (hc e he),
      wordNext_append _ b (wsList_wordNext b hb)]
  rw [hcong]
  cases hfind : cands.find? (fun e => !wordNext (x.drop e)) with
  | none => rfl
  | some e =>
    have he := List.mem_of_find?_eq_some hfind
    simp only [Option.map_some']
    rw [List.drop_append_of_le_length (hc e he)]

theorem matchRep_tail_eq (x b : List Char) (hb : ∀ c ∈ b, isJsWs c = true)
    (k : Nat) : matchRep ((x ++ b).drop k) = matchRep (x.drop k) := by
  by_cases hk : k ≤ x.length
  · rw [List.drop_append_of_le_length hk, matchRep_append _ b hb]
  · have h1 : x.drop k = [] := List.drop_eq_nil_of_le (by omega)
    rw [h1]
    have h2 := matchRep_allWs _ (drop_append_ws_all x b hb k (by omega))
    rw [h2]
    rfl

theorem capCands_pad (x b : List Char) (hb : ∀ c ∈ b, isJsWs c = true) (e0 : Nat) :
    capCands e0 (matchRep ((x ++ b).drop e0)) (fun d1 => matchRep ((x ++ b).drop (e0 + d1)))
      = capCands e0 (matchRep (x.drop e0)) (fun d1 => matchRep (x.drop (e0 + d1))) := by
  rw [matchRep_tail_eq x b hb e0]
  have h2 : (fun d1 => matchRep ((x ++ b).drop (e0 + d1)))
      = (fun d1 => matchRep (x.drop (e0 + d1))) :=
    funext fun d1 => matchRep_tail_eq x b hb (e0 + d1)
  rw [h2]

theorem capCands_bounds (s : List Char) (e0 : Nat) (h1 : 1 ≤ e0) (he0 : e0 ≤ s.length) :
    ∀ e ∈ capCands e0 (matchRep (s.drop e0)) (fun d1 => matchRep (s.drop (e0 + d1))),
      1 ≤ e ∧ e ≤ s.length := by
  intro e he
  cases hrep1 : matchRep (s.drop e0) with
  | none =>
    rw [hrep1] at he
    simp only [capCands, List.mem_cons, List.not_mem_nil, or_false] at he
    omega
  | some d1 =>
    rw [hrep1] at he
    simp only [capCands] at he
    have hb1 := matchRep_le _ d1 hrep1
    rw [List.length_drop] at hb1
    cases hrep2 : matchRep (s.drop (e0 + d1)) with
    | none =>
      simp only [hrep2, List.mem_cons, List.not_mem_nil, or_false] at he
      rcases he with he | he <;> omega
    | some d2 =>
      have hb2 := matchRep_le _ d2 hrep2
      rw [List.length_drop] at hb2
      simp only [hrep2, List.mem_cons, List.not_mem_nil, or_false] at he
      rcases he with he | he | he <;> omega

theorem matchCapAt_append (w : Bool) (x b : List Char)
    (hb : ∀ c ∈ b, isJsWs c = true) :
    matchCapAt w (x ++ b) = (matchCapAt w x).map (fun p => (p.1, p.2 ++ b)) := by
  cases x with
  | nil =>
    simp only [List.nil_append]
    cases b with
    | nil => rfl
    | cons c cs =>
      rw [matchCapAt_ws_head w c cs (hb c (List.mem_cons_self c cs))]
      rfl
  | cons c cs =>
    simp only [matchCapAt, List.cons_append, List.append_eq]
    by_cases hw : w = true
    · rw [if_pos hw, if_pos hw]; rfl
    rw [if_neg hw, if_neg hw]
    by_cases hup : isUpperCh c = true
    case neg => rw [if_neg hup, if_neg hup]; rfl
    rw [if_pos hup, if_pos hup]
    have hstop : ∀ d ∈ b, isAlnumLow d = false := fun d hd => ws_not_alnumLow d (hb d hd)
    have hrw1 : (cs ++ b).takeWhile isAlnumLow = cs.takeWhile isAlnumLow :=
      (takeWhile_append_stop isAlnumLow cs b hstop).1
    rw [hrw1]
    by_cases hrn : (cs.takeWhile isAlnumLow).isEmpty = true
    · rw [if_pos hrn, if_pos hrn]; rfl
    rw [if_neg hrn, if_neg hrn]
    have hr1 : (cs.takeWhile isAlnumLow).length ≤ cs.length := length_takeWhile_le' _ _
    have he0 : 1 + (cs.takeWhile isAlnumLow).length ≤ (c :: cs).length := by
      simp only [List.length_cons]; omega
    have hcb : c :: (cs ++ b) = (c :: cs) ++ b := rfl
    rw [hcb, capCands_pad (c :: cs) b hb]
    apply capPick_append
    · exact hb
    · intro e he
      exact (capCands_bounds (c :: cs) _ (by omega) he0 e he).2

theorem capScanF_allWs (b : List Char) (hb : ∀ c ∈ b, isJsWs c = true) :
    ∀ (fuel : Nat) (w : Bool), capScanF fuel w b = [] := by
  induction b with
  | nil => intro fuel w; cases fuel <;> rfl
  | cons c cs ih =>
    intro fuel w
    cases fuel with
    | zero => rfl
    | succ f =>
      simp only [capScanF, matchCapAt_ws_head w c cs (hb c (List.mem_cons_self c cs))]
      exact ih (fun d hd => hb d (List.mem_cons_of_mem c hd)) f (isWordChar c)

theorem capScanF_append (b : List Char) (hb : ∀ c ∈ b, isJsWs c = true) :
    ∀ (fuel : Nat) (w : Bool) (x : List Char),
      capScanF fuel w (x ++ b) = capScanF fuel w x := by
  intro fuel
  induction fuel with
  | zero => intro w x; rfl
  | succ f ih =>
    intro w x
    cases x with
    | nil =>
      simp only [List.nil_append]
      rw [capScanF_allWs b hb]
      rfl
    | cons c cs =>
      simp only [capScanF, List.append_eq, List.cons_append]
      have hpad := matchCapAt_append w (c :: cs) b hb
      simp only [List.cons_append] at hpad
      cases hm : matchCapAt w (c :: cs) with
      | none =>
        rw [hm] at hpad
        simp only [Option.map_none'] at hpad
        simp only [hpad, hm]
        exact ih (isWordChar c) cs
      | some p =>
        obtain ⟨len, rest⟩ := p
        rw [hm] at hpad
        simp only [Option.map_some'] at hpad
        simp only [hpad, hm]
        obtain ⟨h1, h2, h3⟩ := matchCapAt_le w (c :: cs) len rest hm
        rw [← List.cons_append, List.take_append_of_le_length h2, ih true rest]

theorem capScanF_fuel : ∀ (f1 : Nat) (f2 : Nat) (w : Bool) (x : List Char),
    x.length ≤ f1 → x.length ≤ f2 → capScanF f1 w x = capScanF f2 w x := by
  intro f1
  induction f1 with
  | zero =>
    intro f2 w x h1 _
    have hx : x = [] := List.length_eq_zero.mp (Nat.le_zero.mp h1)
    subst hx
    cases f2 <;> rfl
  | succ f ih =>
    intro f2 w x h1 h2
    cases x with
    | nil => cases f2 <;> rfl
    | cons c cs =>
      cases f2 with
      | zero => simp at h2
      | succ f2' =>
        simp only [capScanF]
        cases hm : matchCapAt w (c :: cs) with
        | none =>
          simp only [hm]
          simp only [List.length_cons] at h1 h2
          exact ih f2' (isWordChar c) cs (by omega) (by omega)
        | some p =>
          obtain ⟨len, rest⟩ := p
          simp only [hm]
          obtain ⟨hl1, hl2, hl3⟩ := matchCapAt_le w (c :: cs) len rest hm
          have hrl : rest.length ≤ (c :: cs).length - len := by
            rw [hl3, List.length_drop]
          simp only [List.length_cons] at h1 h2 hl2
          rw [ih f2' true rest (by simp at hrl; omega) (by simp at hrl; omega)]

theorem capScanF_ws_prefix (l : List Char) :
    ∀ (a : List Char) (fuel : Nat), (∀ c ∈ a, isJsWs c = true) →
      capScanF (a.length + fuel) false (a ++ l) = capScanF fuel false l := by
  intro a
  induction a with
  | nil => intro fuel _; simp
  | cons c a' ih =>
    intro fuel ha
    have hc := ha c (List.mem_cons_self c a')
    have hstep : (c :: a').length + fuel = (a'.length + fuel) + 1 := by
      simp [List.length_cons]; omega
    rw [hstep]
    simp only [List.cons_append, capScanF, List.append_eq]
    simp only [matchCapAt_ws_head false c (a' ++ l) hc]
    rw [ws_not_word c hc]
    exact ih fuel (fun d hd => ha d (List.mem_cons_of_mem c hd))

theorem extractBrandCandidates_pad (a l b : List Char)
    (ha : ∀ c ∈ a, isJsWs c = true) (hb : ∀ c ∈ b, isJsWs c = true) :
    extractBrandCandidates (a ++ l ++ b) = extractBrandCandidates l := by
  have hassoc : a ++ l ++ b = a ++ (l ++ b) := List.append_assoc a l b
  have hlen : (a ++ (l ++ b)).length = a.length + (l ++ b).length := List.length_append _ _
  have hdom : domScanF (a ++ l ++ b).length false (a ++ l ++ b)
      = domScanF l.length false l := by
    rw [hassoc, hlen, domScanF_ws_prefix (l ++ b) a ((l ++ b).length) ha,
      domScanF_append b hb ((l ++ b).length) false l]
    exact domScanF_fuel ((l ++ b).length) l.length false l (by simp) le_rfl
  have hcap : capScanF (a ++ l ++ b).length false (a ++ l ++ b)
      = capScanF l.length false l := by
    rw [hassoc, hlen, capScanF_ws_prefix (l ++ b) a ((l ++ b).length) ha,
      capScanF_append b hb ((l ++ b).length) false l]
    exact capScanF_fuel ((l ++ b).length) l.length false l (by simp) le_rfl
  simp only [extractBrandCandidates, hdom, hcap]

theorem isExternalToolLine_pad (l a b : List Char) (allow : List String)
    (ha : ∀ c ∈ a, isJsWs c = true) (hb : ∀ c ∈ b, isJsWs c = true)
    (h : isExternalToolLine l allow = true) :
    isExternalToolLine (a ++ l ++ b) allow = true := by
  simp only [isExternalToolLine] at h ⊢
  cases hH : (searchFrom hintVerbPat false l || searchFrom hintToolVocabPat false l ||
      searchFrom hintReportPat false l || searchFrom hintOrPat false l ||
      searchFrom httpPat false l || searchFrom domainTestPat false l) with
  | false => rw [hH] at h; simp at h
  | true =>
    rw [hH] at h
    simp only [Bool.not_true] at h
    rw [if_neg (by simp)] at h
    have hH' : (searchFrom hintVerbPat false (a ++ l ++ b) ||
        searchFrom hintToolVocabPat false (a ++ l ++ b) ||
        searchFrom hintReportPat false (a ++ l ++ b) ||
        searchFrom hintOrPat false (a ++ l ++ b) ||
        searchFrom httpPat false (a ++ l ++ b) ||
        searchFrom domainTestPat false (a ++ l ++ b)) = true := by
      simp only [Bool.or_eq_true] at hH
      rcases hH with ((((h1 | h1) | h1) | h1) | h1) | h1 <;>
        (have hp := searchFrom_pad _ a l b ha hb h1
         rw [List.append_assoc] at hp
         simp [hp])
    rw [hH']
    simp only [Bool.not_true]
    rw [if_neg (by simp)]
    rw [extractBrandCandidates_pad a l b ha hb]
    exact h

theorem isExternalToolLine_nil (allow : List String) :
    isExternalToolLine [] allow = false := rfl

theorem removeExternal_lines_clean (text : String) (allow : List String) :
    (splitNl (removeExternalToolMentions text allow).data).all
      (fun ln => !isExternalToolLine ln allow) = true := by
  by_cases htext : text = ""
  · subst htext
    simp [removeExternalToolMentions, splitNl, isExternalToolLine_nil]
  · rw [removeExternalToolMentions, if_neg htext]
    show (splitNl (trimChars (collapseNl 0 (joinNl
      ((splitNl text.data).filter (fun ln => !isExternalToolLine ln allow)))))).all
        (fun ln => !isExternalToolLine ln allow) = true
    rw [List.all_eq_true]
    intro ln hln
    simp only [Bool.not_eq_true']
    obtain ⟨l1, hl1, bb, hlb, hbws⟩ :=
      PrefixRel.mem _ _
        (dropTrailWs_lines ((collapseNl 0 (joinNl
          ((splitNl text.data).filter (fun ln => !isExternalToolLine ln allow)))).dropWhile
            isJsWs)) ln hln
    obtain ⟨l2, hl2, aa, hla, haws⟩ :=
      dropWhileWs_lines (collapseNl 0 (joinNl
        ((splitNl text.data).filter (fun ln => !isExternalToolLine ln allow)))) l1 hl1
    have hsub := (collapseNl_lines (joinNl
      ((splitNl text.data).filter (fun ln => !isExternalToolLine ln allow))) 0).1
    have hl2' : l2 ∈ splitNl (joinNl
        ((splitNl text.data).filter (fun ln => !isExternalToolLine ln allow))) :=
      hsub.subset hl2
    rw [hlb] at hla
    rw [← List.append_assoc] at hla
    by_cases hk : (splitNl text.data).filter (fun ln => !isExternalToolLine ln allow) = []
    · rw [hk] at hl2'
      have hl2nil : l2 = [] := by
        simpa [joinNl, List.intercalate, splitNl] using hl2'
      rw [hl2nil] at hla
      have hln_nil : ln = [] := by
        have := hla.symm
        rcases List.append_eq_nil.mp this with ⟨h1, h2⟩
        rcases List.append_eq_nil.mp h1 with ⟨_, h3⟩
        exact h3
      rw [hln_nil]
      exact isExternalToolLine_nil allow
    · have hnl : ∀ l ∈ (splitNl text.data).filter (fun ln => !isExternalToolLine ln allow),
          ∀ c ∈ l, c ≠ '\n' := by
        intro l hl c hc
        exact splitNl_no_newline text.data l (List.mem_of_mem_filter hl) c hc
      rw [splitNl_joinNl _ hk hnl] at hl2'
      have hext2 : isExternalToolLine l2 allow = false := by
        have h0 := List.of_mem_filter hl2'
        simpa using h0
      by_cases hlnext : isExternalToolLine ln allow = true
      · exfalso
        have hp := isExternalToolLine_pad ln aa bb allow haws hbws hlnext
        rw [← hla] at hp
        rw [hext2] at hp
        exact Bool.false_ne_true hp
      · simpa using hlnext

/-- C1 counterexample: `enforceInternalTool` rewrites the clean generic line
"pick a tool for standups" (not itself flagged) into
"Use **Weekly Report** for this for standups", and that rewritten output
line is flagged by `isExternalToolLine` under the very allow-list used for
the rewrite ("Use" is a capitalized brand candidate that fuzzy-matches no
allowed title), so the enforcement step's output is not free of lines that
pair a hint phrase with an unlisted brand-like candidate. -/

theorem enforceInternalTool_reintroduces_external :
    ((splitNl (enforceInternalTool (stripAllTryLines "pick a tool for standups")
        (buildAllowlist ["Weekly Report"]) "Weekly Report").data).any
      (fun ln => isExternalToolLine ln (buildAllowlist ["Weekly Report"])) = true)
    ∧ isExternalToolLine "pick a tool for standups".data
        (buildAllowlist ["Weekly Report"]) = false := by
  constructor
  · decide
  · decide

/-- C1 (amended): the drop-only sanitizer path keeps the allow-list
invariant — for every input text and allow-list, every line of
`removeExternalToolMentions (stripAllTryLines text) allow` fails
`isExternalToolLine` (no kept line pairs a hint phrase with a brand-like
candidate that misses the allow-list), because dropped lines never return:
joining, blank-run collapsing and trimming only shorten or whitespace-trim
the kept lines.  The rewrite path of `enforceInternalTool` violates the
unrestricted claim (see the counterexample). -/

theorem sanitizer_allowlist_invariant (text : String) (allow : List String) :
    (splitNl (removeExternalToolMentions (stripAllTryLines text) allow).data).all
      (fun ln => !isExternalToolLine ln allow) = true :=
  removeExternal_lines_clean (stripAllTryLines text) allow

end Coach
